import Mathlib

/-!
# Intel/DVI ADPCM codec (`dvi_adpcm.c`): shallow embedding and verification

The embedding follows `src/dvi_adpcm.c` as it is compiled without `SMCA`
(the `#else` branch of the preamble defines the types, so the `#ifdef SMCA`
blocks are absent and the decoder takes its state from `state_`).

Conventions of the embedding.

* A C `int` is a Lean `Int` and `+`, `-`, `*` are exact: no wrap-around is
  modelled.  The bit operators `&`, `|`, `<<`, `>>` act on the 32-bit two's
  complement pattern (`c_and`, `c_or`, `c_shl`, `c_shr`); `/` and `%` round
  towards zero (`Int.tdiv`, `Int.tmod`).
* A pointer that walks a buffer (`s`, `c`, `in_sbuf`) is the list of the elements
  from the pointer to the end of the buffer; `*p++` takes the head and leaves the
  tail.  Reading past the end of the buffer has no defined result: the codec
  functions return `none` there.
* Everything written through an output pointer (`out_sbuf`, `s`, `c`) is collected
  in a list, in the order of the writes.
* A byte of the compressed stream is its unsigned value `0..255`; the codec reads
  and writes it through `signed char *` (`schar_load`, `schar_store`).
* `dvi2bit` is the flag of the source: non-zero selects the 4-bit DVI coder, zero
  the 2-bit G.726-16 style coder.
-/

namespace DviAdpcm

/-! ## C integer operators -/

/-- Two's complement 32-bit pattern of a C `int`. -/
def toBits32 (x : Int) : Nat := (x % 4294967296).toNat

/-- The C `int` with a given 32-bit two's complement pattern. -/
def ofBits32 (n : Nat) : Int :=
  if n < 2147483648 then (n : Int) else (n : Int) - 4294967296

/-- C `x & y` on `int`. -/
def c_and (x y : Int) : Int := ofBits32 (toBits32 x &&& toBits32 y)

/-- C `x | y` on `int`. -/
def c_or (x y : Int) : Int := ofBits32 (toBits32 x ||| toBits32 y)

/-- C `x << k` on `int` (bits shifted out of the 32-bit word are dropped). -/
def c_shl (x : Int) (k : Nat) : Int := ofBits32 ((toBits32 x <<< k) % 4294967296)

/-- C `x >> k` on `int` (arithmetic shift). -/
def c_shr (x : Int) (k : Nat) : Int := x >>> k

/-- C `!x`. -/
def c_not (x : Int) : Int := if x = 0 then 1 else 0

/-- Conversion to `int16`. -/
def int16_cast (x : Int) : Int := (x + 32768) % 65536 - 32768

/-- Conversion to `u_int8`. -/
def u_int8_cast (x : Int) : Int := x % 256

/-- The byte left in memory by a store of `x` through a `signed char *`. -/
def schar_store (x : Int) : Int := x % 256

/-- The `int` obtained by reading byte `b` through a `signed char *`. -/
def schar_load (b : Int) : Int := (b + 128) % 256 - 128

/-! ## Types, constants and tables -/

/-- Codec state `struct dvi_adpcm_state`. -/
structure dvi_adpcm_state where
  valpred : Int
  index : Int
  dvi2bit : Int
deriving DecidableEq, Repr

/-- Audio descriptor `audio_descr_t`. -/
structure audio_descr_t where
  encoding : Int
deriving DecidableEq, Repr

def AE_L16 : Int := 1

def AE_PCMU : Int := 2

/-- Macro `pcmu_l16(x)`, that is `((int16)x)`. -/
def pcmu_l16 (x : Int) : Int := int16_cast x

/-- Macro `l16_pcmu(x)`, that is `((u_int8)x)`. -/
def l16_pcmu (x : Int) : Int := u_int8_cast x

/-- Intel ADPCM step variation table. -/
def indexTable : List Int :=
  [-1, -1, -1, -1, 2, 4, 6, 8,
   -1, -1, -1, -1, 2, 4, 6, 8]

def stepsizeTable : List Int :=
  [7, 8, 9, 10, 11, 12, 13, 14, 16, 17,
   19, 21, 23, 25, 28, 31, 34, 37, 41, 45,
   50, 55, 60, 66, 73, 80, 88, 97, 107, 118,
   130, 143, 157, 173, 190, 209, 230, 253, 279, 307,
   337, 371, 408, 449, 494, 544, 598, 658, 724, 796,
   876, 963, 1060, 1166, 1282, 1411, 1552, 1707, 1878, 2066,
   2272, 2499, 2749, 3024, 3327, 3660, 4026, 4428, 4871, 5358,
   5894, 6484, 7132, 7845, 8630, 9493, 10442, 11487, 12635, 13899,
   15289, 16818, 18500, 20350, 22385, 24623, 27086, 29794, 32767]

/-- G.726-16 (2-bit ADPCM) step variation. -/
def indexTable2 : List Int :=
  [-1, 2,
   -1, 2]

def stepsizeTable2 : List Int :=
  [256*1, 256*2, 256*3, 256*5, 256*7, 256*11, 256*15, 256*23, 256*31, 256*63, 256*127]

/-- Array read `t[i]`.  The codec only reads at indices inside the table, see the
state invariant below. -/
def tableAt (t : List Int) (i : Int) : Int := t.getD i.toNat 0

/-- Initialize encoder state. -/
def dvi_adpcm_init_state (_state : dvi_adpcm_state) : dvi_adpcm_state :=
  { valpred := 0, index := 0, dvi2bit := 0 }

/-! ## Blocks shared by the loop bodies -/

/-- The locals `valpred`, `index`, `step` carried from one loop iteration to the next. -/
structure predictor where
  valpred : Int
  index : Int
  step : Int
deriving DecidableEq, Repr

/-- Clamp previous value to 16 bits:
`if (valpred > 32767) valpred = 32767; else if (valpred < -32768) valpred = -32768;`. -/
def clamp16 (valpred : Int) : Int :=
  if valpred > 32767 then 32767
  else if valpred < -32768 then -32768
  else valpred

/-- Index clamp `if (index < 0) index = 0; if (index > hi) index = hi;`. -/
def clamp_index (index hi : Int) : Int :=
  let index := if index < 0 then 0 else index
  if index > hi then hi else index

/-! ## Encoder -/

/-- Steps 1 to 5 of the DVI (4-bit) branch of the encoder loop: from the input
sample `val` and the locals, the code `delta` and the updated locals. -/
def encode_quant4 (val : Int) (p : predictor) : Int × predictor :=
  /- Step 1 - compute difference with previous value -/
  let diff := val - p.valpred
  let sign : Int := if diff < 0 then 8 else 0
  let diff := if sign ≠ 0 then -diff else diff
  /- Step 2 - Divide and clamp -/
  let delta : Int := 0
  let vpdiff := c_shr p.step 3
  let step := p.step
  let delta1 := if diff ≥ step then 4 else delta
  let diff1 := if diff ≥ step then diff - step else diff
  let vpdiff1 := if diff ≥ step then vpdiff + step else vpdiff
  let step1 := c_shr step 1
  let delta2 := if diff1 ≥ step1 then c_or delta1 2 else delta1
  let diff2 := if diff1 ≥ step1 then diff1 - step1 else diff1
  let vpdiff2 := if diff1 ≥ step1 then vpdiff1 + step1 else vpdiff1
  let step2 := c_shr step1 1
  let delta3 := if diff2 ≥ step2 then c_or delta2 1 else delta2
  let vpdiff3 := if diff2 ≥ step2 then vpdiff2 + step2 else vpdiff2
  /- Step 3 - Update previous value -/
  let valpred := if sign ≠ 0 then p.valpred - vpdiff3 else p.valpred + vpdiff3
  /- Step 4 - Clamp previous value to 16 bits -/
  let valpred := clamp16 valpred
  /- Step 5 - Assemble value, update index and step values -/
  let delta4 := c_or delta3 sign
  let index := clamp_index (p.index + tableAt indexTable delta4) 88
  (delta4, { valpred := valpred, index := index, step := tableAt stepsizeTable index })

/-- Steps 1 to 5 of the G726-16 (2-bit) branch of the encoder loop. -/
def encode_quant2 (val : Int) (p : predictor) : Int × predictor :=
  /- Step 1: compute difference from previous sample, record sign -/
  let diff := val - p.valpred
  let sign : Int := if diff < 0 then 2 else 0
  let diff := if sign ≠ 0 then -diff else diff
  /- Step 2: compare difference to step size, choose magnitude bit -/
  let delta : Int := 0
  let vpdiff := c_shr p.step 1
  let delta1 := if diff > p.step then 1 else delta
  let vpdiff1 := if diff > p.step then vpdiff + p.step else vpdiff
  /- Step 3: update previous sample value -/
  let valpred := if sign ≠ 0 then p.valpred - vpdiff1 else p.valpred + vpdiff1
  /- Step 4 - Clamp previous value to 16 bits -/
  let valpred := clamp16 valpred
  /- Step 5 - Assemble value, update index and step values -/
  let delta2 := c_or delta1 sign
  let index := clamp_index (p.index + tableAt indexTable2 delta2) 10
  (delta2, { valpred := valpred, index := index, step := tableAt stepsizeTable2 index })

/-- The locals `outputbuffer`, `bufferstep` and the bytes written through `out_sbuf`. -/
structure packer where
  outputbuffer : Int
  bufferstep : Int
  out : List Int
deriving DecidableEq, Repr

/-- Step 6 (output value) of the DVI branch, with the toggle of `bufferstep`. -/
def encode_put4 (delta : Int) (k : packer) : packer :=
  if k.bufferstep ≠ 0 then
    { outputbuffer := c_and (c_shl delta 4) 0xf0,
      bufferstep := c_not k.bufferstep,
      out := k.out }
  else
    { outputbuffer := k.outputbuffer,
      bufferstep := c_not k.bufferstep,
      out := k.out ++ [schar_store (c_or (c_and delta 0x0f) k.outputbuffer)] }

/-- Step 6 (output value) of the G726-16 branch: the `switch (bufferstep)` and
`bufferstep = (bufferstep+1)%4`. -/
def encode_put2 (delta : Int) (k : packer) : packer :=
  let next := Int.tmod (k.bufferstep + 1) 4
  if k.bufferstep = 1 then
    { outputbuffer := c_and (c_shl delta 6) 0xc0, bufferstep := next, out := k.out }
  else if k.bufferstep = 2 then
    { outputbuffer := c_or k.outputbuffer (c_and (c_shl delta 4) 0x30),
      bufferstep := next, out := k.out }
  else if k.bufferstep = 3 then
    { outputbuffer := c_or k.outputbuffer (c_and (c_shl delta 2) 0x0c),
      bufferstep := next, out := k.out }
  else if k.bufferstep = 0 then
    { outputbuffer := k.outputbuffer, bufferstep := next,
      out := k.out ++ [schar_store (c_or (c_and delta 0x03) k.outputbuffer)] }
  else
    { outputbuffer := k.outputbuffer, bufferstep := next, out := k.out }

/-- All locals of `dvi_adpcm_encode` that live across loop iterations; `src` is the
input pointer (`s` or `c`). -/
structure enc_locals where
  src : List Int
  pred : predictor
  pack : packer
deriving DecidableEq, Repr

/-- The read `(header->encoding == AE_PCMU) ? pcmu_l16(*c++) : *s++`: the value
and the advanced pointer, `none` when the pointer is at the end of the buffer. -/
def read_sample (encoding : Int) (src : List Int) : Option (Int × List Int) :=
  match src with
  | [] => none
  | x :: rest => some (if encoding = AE_PCMU then pcmu_l16 x else x, rest)

/-- One iteration of the encoder loop. -/
def encode_iter (dvi2bit encoding : Int) (l : enc_locals) : Option enc_locals :=
  match read_sample encoding l.src with
  | none => none
  | some (val, rest) =>
    if dvi2bit ≠ 0 then
      let q := encode_quant4 val l.pred
      some { src := rest, pred := q.2, pack := encode_put4 q.1 l.pack }
    else
      let q := encode_quant2 val l.pred
      some { src := rest, pred := q.2, pack := encode_put2 q.1 l.pack }

/-- The loop `for ( ; in_size > 0; in_size--)` of the encoder, `n` iterations. -/
def encode_loop (dvi2bit encoding : Int) : Nat → enc_locals → Option enc_locals
  | 0, l => some l
  | n + 1, l =>
    match encode_iter dvi2bit encoding l with
    | none => none
    | some l1 => encode_loop dvi2bit encoding n l1

/-- The locals on entry to the encoder loop: `valpred` read from the input,
`index = state->index`, `step` looked up, `bufferstep = 1`, `outputbuffer = 0`. -/
def encode_start (state : dvi_adpcm_state) (valpred : Int) (src : List Int) : enc_locals :=
  let index := state.index
  let step :=
    if state.dvi2bit ≠ 0 then tableAt stepsizeTable index else tableAt stepsizeTable2 index
  { src := src,
    pred := { valpred := valpred, index := index, step := step },
    pack := { outputbuffer := 0, bufferstep := 1, out := [] } }

/-- Output last step, if needed:
`if ( state->dvi2bit && !bufferstep ) *out_sbuf++ = outputbuffer;`. -/
def encode_flush (dvi2bit : Int) (k : packer) : List Int :=
  if dvi2bit ≠ 0 ∧ c_not k.bufferstep ≠ 0 then k.out ++ [schar_store k.outputbuffer]
  else k.out

/-- What a call of `dvi_adpcm_encode` leaves behind: the return value, the bytes
written to `out_buf`, `*out_size` (`none` when it is not assigned) and the state. -/
structure enc_result where
  ret : Int
  out : List Int
  out_size : Option Int
  state : dvi_adpcm_state
deriving DecidableEq, Repr

/-- Function `dvi_adpcm_encode`.  `in_buf` holds the elements of the input buffer
(`int16` for `AE_L16`, `u_int8` for `AE_PCMU`), `in_size` is the argument of that
name; `header_flag` is only used under `SMCA`.  The result is `none` when the
call reads past the end of `in_buf`. -/
def dvi_adpcm_encode (in_buf : List Int) (in_size : Int) (header : audio_descr_t)
    (state : dvi_adpcm_state) (_header_flag : Int) : Option enc_result :=
  if header.encoding = AE_L16 ∨ header.encoding = AE_PCMU then
    let in_size := if header.encoding = AE_L16 then Int.tdiv in_size 2 else in_size
    /- insert state into output buffer -/
    let out_size := if state.dvi2bit ≠ 0 then Int.tdiv in_size 2 else Int.tdiv in_size 4
    match read_sample header.encoding in_buf with
    | none => none
    | some (valpred, src) =>
      match encode_loop state.dvi2bit header.encoding in_size.toNat
          (encode_start state valpred src) with
      | none => none
      | some l =>
        some { ret := 0, out := encode_flush state.dvi2bit l.pack, out_size := some out_size,
               state := { valpred := l.pred.valpred, index := l.pred.index,
                          dvi2bit := state.dvi2bit } }
  else
    some { ret := -1, out := [], out_size := none, state := state }

/-! ## Decoder -/

/-- Steps 2 to 6 of the DVI branch of the decoder loop: from the code `delta` and
the locals, the updated locals. -/
def decode_dequant4 (delta : Int) (p : predictor) : predictor :=
  /- Step 2 - Find new index value (for later) -/
  let index := clamp_index (p.index + tableAt indexTable delta) 88
  /- Step 3 - Separate sign and magnitude -/
  let sign := c_and delta 8
  let delta := c_and delta 7
  /- Step 4 - Compute difference and new predicted value -/
  let vpdiff := c_shr p.step 3
  let vpdiff := if c_and delta 4 ≠ 0 then vpdiff + p.step else vpdiff
  let vpdiff := if c_and delta 2 ≠ 0 then vpdiff + c_shr p.step 1 else vpdiff
  let vpdiff := if c_and delta 1 ≠ 0 then vpdiff + c_shr p.step 2 else vpdiff
  let valpred := if sign ≠ 0 then p.valpred - vpdiff else p.valpred + vpdiff
  /- Step 5 - clamp output value -/
  let valpred := clamp16 valpred
  /- Step 6 - Update step value -/
  { valpred := valpred, index := index, step := tableAt stepsizeTable index }

/-- Steps 2 to 6 of the G726-16 branch of the decoder loop. -/
def decode_dequant2 (delta : Int) (p : predictor) : predictor :=
  /- Step 2: get new index value for later -/
  let index := clamp_index (p.index + tableAt indexTable2 delta) 10
  /- Step 3 - Separate sign and magnitude -/
  let sign := c_and delta 2
  let delta := c_and delta 1
  /- Step 4 - Compute difference and new predicted value -/
  let vpdiff := c_shr p.step 1
  let vpdiff := if c_and delta 1 ≠ 0 then vpdiff + p.step else vpdiff
  let valpred := if sign ≠ 0 then p.valpred - vpdiff else p.valpred + vpdiff
  /- Step 5 - clamp output value -/
  let valpred := clamp16 valpred
  /- Step 6 - Update step value -/
  { valpred := valpred, index := index, step := tableAt stepsizeTable2 index }

/-- The locals `inputbuffer`, `bufferstep` and the input pointer `in_sbuf`. -/
structure unpacker where
  in_sbuf : List Int
  inputbuffer : Int
  bufferstep : Int
deriving DecidableEq, Repr

/-- Step 1 (get the delta value) of the DVI branch, with the toggle of
`bufferstep`: the code and the updated locals, `none` when a byte is read at the
end of the buffer. -/
def decode_get4 (u : unpacker) : Option (Int × unpacker) :=
  if u.bufferstep ≠ 0 then
    some (c_and u.inputbuffer 0xf,
      { in_sbuf := u.in_sbuf, inputbuffer := u.inputbuffer, bufferstep := c_not u.bufferstep })
  else
    match u.in_sbuf with
    | [] => none
    | b :: rest =>
      let inputbuffer := schar_load b
      some (c_and (c_shr inputbuffer 4) 0xf,
        { in_sbuf := rest, inputbuffer := inputbuffer, bufferstep := c_not u.bufferstep })

/-- Step 1 (get delta value) of the G726-16 branch: the `switch (bufferstep)` and
`bufferstep = (bufferstep+1)%4`.  No case of the switch assigns `delta` when
`bufferstep` is outside `0..3`; the loop never gets there, and the embedding
returns the code 0 then. -/
def decode_get2 (u : unpacker) : Option (Int × unpacker) :=
  let next := Int.tmod (u.bufferstep + 1) 4
  if u.bufferstep = 0 then
    match u.in_sbuf with
    | [] => none
    | b :: rest =>
      let inputbuffer := schar_load b
      some (c_and (c_shr inputbuffer 6) 0x3,
        { in_sbuf := rest, inputbuffer := inputbuffer, bufferstep := next })
  else if u.bufferstep = 1 then
    some (c_and (c_shr u.inputbuffer 4) 0x3, { u with bufferstep := next })
  else if u.bufferstep = 2 then
    some (c_and (c_shr u.inputbuffer 2) 0x3, { u with bufferstep := next })
  else if u.bufferstep = 3 then
    some (c_and u.inputbuffer 0x3, { u with bufferstep := next })
  else
    some (0, { u with bufferstep := next })

/-- All locals of `dvi_adpcm_decode` that live across loop iterations; `out` holds
the elements written through `s` or `c`. -/
structure dec_locals where
  unpack : unpacker
  pred : predictor
  out : List Int
deriving DecidableEq, Repr

/-- Step 7 (output value): the element stored by `*c++ = l16_pcmu(valpred)` or
`*s++ = valpred`. -/
def write_sample (encoding : Int) (valpred : Int) : Int :=
  if encoding = AE_PCMU then l16_pcmu valpred else int16_cast valpred

/-- One iteration of the decoder loop. -/
def decode_iter (dvi2bit encoding : Int) (l : dec_locals) : Option dec_locals :=
  if dvi2bit ≠ 0 then
    match decode_get4 l.unpack with
    | none => none
    | some (delta, u) =>
      let p := decode_dequant4 delta l.pred
      some { unpack := u, pred := p, out := l.out ++ [write_sample encoding p.valpred] }
  else
    match decode_get2 l.unpack with
    | none => none
    | some (delta, u) =>
      let p := decode_dequant2 delta l.pred
      some { unpack := u, pred := p, out := l.out ++ [write_sample encoding p.valpred] }

/-- The loop `for ( ; in_size > 0 ; in_size--)` of the decoder, `n` iterations. -/
def decode_loop (dvi2bit encoding : Int) : Nat → dec_locals → Option dec_locals
  | 0, l => some l
  | n + 1, l =>
    match decode_iter dvi2bit encoding l with
    | none => none
    | some l1 => decode_loop dvi2bit encoding n l1

/-- The locals on entry to the decoder loop: `valpred` and `index` from the state,
`step` looked up, `bufferstep = 0`, `inputbuffer = 0`. -/
def decode_start (state : dvi_adpcm_state) (in_buf : List Int) : dec_locals :=
  let valpred := state.valpred
  let index := state.index
  let step :=
    if state.dvi2bit ≠ 0 then tableAt stepsizeTable index else tableAt stepsizeTable2 index
  { unpack := { in_sbuf := in_buf, inputbuffer := 0, bufferstep := 0 },
    pred := { valpred := valpred, index := index, step := step },
    out := [] }

/-- What a call of `dvi_adpcm_decode` leaves behind: the return value, the elements
written to `out_buf`, `*out_size` (`none` when it is not assigned), the part of
`in_buf` that was not read, and the state. -/
structure dec_result where
  ret : Int
  out : List Int
  out_size : Option Int
  unread : List Int
  state : dvi_adpcm_state
deriving DecidableEq, Repr

/-- Function `dvi_adpcm_decode`.  `in_buf` holds the bytes of the input buffer,
`in_size` is the argument of that name.  The result is `none` when the call reads
past the end of `in_buf`. -/
def dvi_adpcm_decode (in_buf : List Int) (in_size : Int) (header : audio_descr_t)
    (state : dvi_adpcm_state) : Option dec_result :=
  /- convert to sample count -/
  let in_size := in_size * (if state.dvi2bit ≠ 0 then 2 else 4)
  if header.encoding = AE_PCMU ∨ header.encoding = AE_L16 then
    let out_size := if header.encoding = AE_PCMU then in_size else in_size * 2
    match decode_loop state.dvi2bit header.encoding in_size.toNat (decode_start state in_buf) with
    | none => none
    | some l =>
      some { ret := 0, out := l.out, out_size := some out_size, unread := l.unpack.in_sbuf,
             state := { valpred := l.pred.valpred, index := l.pred.index,
                        dvi2bit := state.dvi2bit } }
  else
    some { ret := -1, out := [], out_size := none, unread := in_buf, state := state }

/-! ## Derived notions used to state the properties

They are built from the blocks of the loop bodies above and describe the
successive iterations of the loops. -/

/-- The element read by `(header->encoding == AE_PCMU) ? pcmu_l16(*c++) : *s++`
when the pointer is at `x`. -/
def sample_of (encoding : Int) (x : Int) : Int :=
  if encoding = AE_PCMU then pcmu_l16 x else x

/-- Steps 1 to 5 of the encoder loop body, in the branch selected by `dvi2bit`. -/
def encode_quant (dvi2bit : Int) (val : Int) (p : predictor) : Int × predictor :=
  if dvi2bit ≠ 0 then encode_quant4 val p else encode_quant2 val p

/-- Step 6 of the encoder loop body, in the branch selected by `dvi2bit`. -/
def encode_put (dvi2bit : Int) (delta : Int) (k : packer) : packer :=
  if dvi2bit ≠ 0 then encode_put4 delta k else encode_put2 delta k

/-- The codes `delta` computed by the successive iterations of the encoder loop
on the samples `vals`, from the locals `p`. -/
def encode_codes (dvi2bit : Int) : predictor → List Int → List Int
  | _, [] => []
  | p, val :: vals =>
    (encode_quant dvi2bit val p).1 :: encode_codes dvi2bit (encode_quant dvi2bit val p).2 vals

/-- The locals `valpred`, `index`, `step` after each of the successive iterations of
the encoder loop on the samples `vals`, from the locals `p`. -/
def encode_preds (dvi2bit : Int) : predictor → List Int → List predictor
  | _, [] => []
  | p, val :: vals =>
    (encode_quant dvi2bit val p).2 :: encode_preds dvi2bit (encode_quant dvi2bit val p).2 vals

/-- The locals `valpred`, `index`, `step` when the encoder loop has run over `vals`. -/
def encode_final (dvi2bit : Int) (p : predictor) (vals : List Int) : predictor :=
  vals.foldl (fun q val => (encode_quant dvi2bit val q).2) p

/-- The packer locals when Step 6 has been run on the codes `codes` in turn. -/
def encode_puts (dvi2bit : Int) (k : packer) (codes : List Int) : packer :=
  codes.foldl (fun q delta => encode_put dvi2bit delta q) k

/-- The bytes the encoder writes for a sequence of codes: Step 6 on each code from
`bufferstep = 1`, `outputbuffer = 0`, then the output of the last step. -/
def pack_codes (dvi2bit : Int) (codes : List Int) : List Int :=
  encode_flush dvi2bit (encode_puts dvi2bit { outputbuffer := 0, bufferstep := 1, out := [] } codes)

/-- Steps 2 to 6 of the decoder loop body, in the branch selected by `dvi2bit`. -/
def decode_dequant (dvi2bit : Int) (delta : Int) (p : predictor) : predictor :=
  if dvi2bit ≠ 0 then decode_dequant4 delta p else decode_dequant2 delta p

/-- Step 1 of the decoder loop body, in the branch selected by `dvi2bit`. -/
def decode_get (dvi2bit : Int) (u : unpacker) : Option (Int × unpacker) :=
  if dvi2bit ≠ 0 then decode_get4 u else decode_get2 u

/-- The codes extracted by `n` successive runs of Step 1 of the decoder loop,
with the unpacker locals left behind. -/
def unpack_codes (dvi2bit : Int) : Nat → unpacker → Option (List Int × unpacker)
  | 0, u => some ([], u)
  | n + 1, u =>
    match decode_get dvi2bit u with
    | none => none
    | some (delta, u1) =>
      match unpack_codes dvi2bit n u1 with
      | none => none
      | some (codes, u2) => some (delta :: codes, u2)

/-- The codes the decoder extracts from one byte, in order. -/
def byte_codes (dvi2bit : Int) (b : Int) : List Int :=
  if dvi2bit ≠ 0 then
    [c_and (c_shr (schar_load b) 4) 0xf, c_and (schar_load b) 0xf]
  else
    [c_and (c_shr (schar_load b) 6) 0x3, c_and (c_shr (schar_load b) 4) 0x3,
     c_and (c_shr (schar_load b) 2) 0x3, c_and (schar_load b) 0x3]

/-- The codes the decoder extracts from a sequence of bytes, in order. -/
def bytes_codes (dvi2bit : Int) : List Int → List Int
  | [] => []
  | b :: bs => byte_codes dvi2bit b ++ bytes_codes dvi2bit bs

/-- The locals `valpred`, `index`, `step` after each of the successive iterations of
the decoder loop on the codes `codes`, from the locals `p`. -/
def decode_preds (dvi2bit : Int) : predictor → List Int → List predictor
  | _, [] => []
  | p, delta :: codes =>
    decode_dequant dvi2bit delta p :: decode_preds dvi2bit (decode_dequant dvi2bit delta p) codes

/-- The locals `valpred`, `index`, `step` when the decoder loop has run over `codes`. -/
def decode_final (dvi2bit : Int) (p : predictor) (codes : List Int) : predictor :=
  codes.foldl (fun q delta => decode_dequant dvi2bit delta q) p

/-- Number of codes per byte: the factor of `in_size *= (state->dvi2bit ? 2: 4)`. -/
def codes_per_byte (dvi2bit : Int) : Nat := if dvi2bit ≠ 0 then 2 else 4

/-- The step table of the mode and its last index. -/
def max_index (dvi2bit : Int) : Int := if dvi2bit ≠ 0 then 88 else 10

/-- The step size looked up on entry: `stepsizeTable[index]` or `stepsizeTable2[index]`. -/
def step_of (dvi2bit : Int) (index : Int) : Int :=
  if dvi2bit ≠ 0 then tableAt stepsizeTable index else tableAt stepsizeTable2 index

/-- A predictor in `[-32768, 32767]` and a step index inside the table of the mode. -/
def in_bounds (dvi2bit : Int) (valpred index : Int) : Prop :=
  -32768 ≤ valpred ∧ valpred ≤ 32767 ∧ 0 ≤ index ∧ index ≤ max_index dvi2bit

instance (dvi2bit valpred index : Int) : Decidable (in_bounds dvi2bit valpred index) := by
  unfold in_bounds; infer_instance

/-- The samples the decoder writes on the successive codes `codes`. -/
def decode_samples (d e : Int) (p : predictor) (codes : List Int) : List Int :=
  (decode_preds d p codes).map (fun q => write_sample e q.valpred)

/-- The input buffer register after the bytes `bs` have been loaded. -/
def last_loaded (ib : Int) (bs : List Int) : Int :=
  bs.foldl (fun _ b => schar_load b) ib

/-- The bytes written for a sequence of 4-bit codes. -/
def bytes4 : List Int → List Int
  | a :: b :: t => schar_store (c_or (c_and b 0x0f) (c_and (c_shl a 4) 0xf0)) :: bytes4 t
  | [a] => [schar_store (c_and (c_shl a 4) 0xf0)]
  | [] => []

/-- The bytes written for a sequence of 2-bit codes. -/
def bytes2 : List Int → List Int
  | a :: b :: c :: e :: t =>
    schar_store (c_or (c_and e 0x03)
      (c_or (c_or (c_and (c_shl a 6) 0xc0) (c_and (c_shl b 4) 0x30))
        (c_and (c_shl c 2) 0x0c))) :: bytes2 t
  | _ => []

/-! ## The loop bodies with an explicit machine arithmetic

The same blocks as above, with every result of a C `+` or `-` passed through a
function `w` standing for the conversion of the mathematical result to the
machine `int`, and with the intermediate values `diff`, `vpdiff` and the
unclamped `valpred` returned next to the result.  With `w` the identity they are
the blocks above. -/

/-- Value of a 32-bit two's complement `int` holding the low 32 bits of `x`. -/
def wrap32 (x : Int) : Int := ofBits32 (toBits32 x)

/-- Intermediate values of one loop iteration: `diff` as computed by
`diff = val - valpred` (encoder only, 0 in the decoder), the final `vpdiff`, and
`valpred` after Step 3 and before the clamp. -/
structure quant_mid where
  diff : Int
  vpdiff : Int
  unclamped : Int
deriving DecidableEq, Repr

/-- Step 2 (divide and clamp) of the DVI branch of the encoder: from `diff`
(sign removed) and `step`, the magnitude bits `delta` and `vpdiff`. -/
def quant4_ladder_with (w : Int → Int) (diff step : Int) : Int × Int :=
  let delta : Int := 0
  let vpdiff := c_shr step 3
  let delta1 := if diff ≥ step then 4 else delta
  let diff1 := if diff ≥ step then w (diff - step) else diff
  let vpdiff1 := if diff ≥ step then w (vpdiff + step) else vpdiff
  let step1 := c_shr step 1
  let delta2 := if diff1 ≥ step1 then c_or delta1 2 else delta1
  let diff2 := if diff1 ≥ step1 then w (diff1 - step1) else diff1
  let vpdiff2 := if diff1 ≥ step1 then w (vpdiff1 + step1) else vpdiff1
  let step2 := c_shr step1 1
  let delta3 := if diff2 ≥ step2 then c_or delta2 1 else delta2
  let vpdiff3 := if diff2 ≥ step2 then w (vpdiff2 + step2) else vpdiff2
  (delta3, vpdiff3)

/-- Steps 1 to 5 of the DVI branch of the encoder loop over the arithmetic `w`. -/
def encode_quant4_with (w : Int → Int) (val : Int) (p : predictor) :
    quant_mid × (Int × predictor) :=
  let diff0 := w (val - p.valpred)
  let sign : Int := if diff0 < 0 then 8 else 0
  let diff := if sign ≠ 0 then w (-diff0) else diff0
  let lad := quant4_ladder_with w diff p.step
  let unclamped := if sign ≠ 0 then w (p.valpred - lad.2) else w (p.valpred + lad.2)
  let valpred := clamp16 unclamped
  let delta4 := c_or lad.1 sign
  let index := clamp_index (w (p.index + tableAt indexTable delta4)) 88
  ({ diff := diff0, vpdiff := lad.2, unclamped := unclamped },
   (delta4, { valpred := valpred, index := index, step := tableAt stepsizeTable index }))

/-- Steps 1 to 5 of the G726-16 branch of the encoder loop over the arithmetic `w`. -/
def encode_quant2_with (w : Int → Int) (val : Int) (p : predictor) :
    quant_mid × (Int × predictor) :=
  let diff0 := w (val - p.valpred)
  let sign : Int := if diff0 < 0 then 2 else 0
  let diff := if sign ≠ 0 then w (-diff0) else diff0
  let delta : Int := 0
  let vpdiff := c_shr p.step 1
  let delta1 := if diff > p.step then 1 else delta
  let vpdiff1 := if diff > p.step then w (vpdiff + p.step) else vpdiff
  let unclamped := if sign ≠ 0 then w (p.valpred - vpdiff1) else w (p.valpred + vpdiff1)
  let valpred := clamp16 unclamped
  let delta2 := c_or delta1 sign
  let index := clamp_index (w (p.index + tableAt indexTable2 delta2)) 10
  ({ diff := diff0, vpdiff := vpdiff1, unclamped := unclamped },
   (delta2, { valpred := valpred, index := index, step := tableAt stepsizeTable2 index }))

/-- Steps 2 to 6 of the DVI branch of the decoder loop over the arithmetic `w`. -/
def decode_dequant4_with (w : Int → Int) (delta : Int) (p : predictor) :
    quant_mid × predictor :=
  let index := clamp_index (w (p.index + tableAt indexTable delta)) 88
  let sign := c_and delta 8
  let delta := c_and delta 7
  let vpdiff := c_shr p.step 3
  let vpdiff := if c_and delta 4 ≠ 0 then w (vpdiff + p.step) else vpdiff
  let vpdiff := if c_and delta 2 ≠ 0 then w (vpdiff + c_shr p.step 1) else vpdiff
  let vpdiff := if c_and delta 1 ≠ 0 then w (vpdiff + c_shr p.step 2) else vpdiff
  let unclamped := if sign ≠ 0 then w (p.valpred - vpdiff) else w (p.valpred + vpdiff)
  let valpred := clamp16 unclamped
  ({ diff := 0, vpdiff := vpdiff, unclamped := unclamped },
   { valpred := valpred, index := index, step := tableAt stepsizeTable index })

/-- Steps 2 to 6 of the G726-16 branch of the decoder loop over the arithmetic `w`. -/
def decode_dequant2_with (w : Int → Int) (delta : Int) (p : predictor) :
    quant_mid × predictor :=
  let index := clamp_index (w (p.index + tableAt indexTable2 delta)) 10
  let sign := c_and delta 2
  let delta := c_and delta 1
  let vpdiff := c_shr p.step 1
  let vpdiff := if c_and delta 1 ≠ 0 then w (vpdiff + p.step) else vpdiff
  let unclamped := if sign ≠ 0 then w (p.valpred - vpdiff) else w (p.valpred + vpdiff)
  let valpred := clamp16 unclamped
  ({ diff := 0, vpdiff := vpdiff, unclamped := unclamped },
   { valpred := valpred, index := index, step := tableAt stepsizeTable2 index })

/-- The list made of `m` copies of `block`, one after the other. -/
def repeat_block (block : List Int) : Nat → List Int
  | 0 => []
  | m + 1 => block ++ repeat_block block m

/-! ## Elementary facts -/

theorem clamp16_range (x : Int) : -32768 ≤ clamp16 x ∧ clamp16 x ≤ 32767 := by
  unfold clamp16
  split_ifs <;> omega

theorem clamp_index_range (x hi : Int) (h : 0 ≤ hi) :
    0 ≤ clamp_index x hi ∧ clamp_index x hi ≤ hi := by
  simp only [clamp_index]
  split_ifs <;> omega

theorem int16_cast_range (x : Int) : -32768 ≤ int16_cast x ∧ int16_cast x ≤ 32767 := by
  unfold int16_cast
  omega

theorem int16_cast_of_range (x : Int) (h1 : -32768 ≤ x) (h2 : x ≤ 32767) : int16_cast x = x := by
  unfold int16_cast
  omega

theorem write_sample_range (e x : Int) :
    -32768 ≤ write_sample e x ∧ write_sample e x ≤ 32767 := by
  unfold write_sample l16_pcmu u_int8_cast int16_cast
  split_ifs <;> omega

theorem write_sample_l16 (x : Int) (h1 : -32768 ≤ x) (h2 : x ≤ 32767) :
    write_sample AE_L16 x = x := by
  unfold write_sample
  rw [if_neg (by decide)]
  exact int16_cast_of_range x h1 h2

theorem max_index_nonneg (d : Int) : 0 ≤ max_index d := by
  unfold max_index
  split_ifs <;> omega

theorem encode_quant_valpred_range (d val : Int) (p : predictor) :
    -32768 ≤ (encode_quant d val p).2.valpred ∧ (encode_quant d val p).2.valpred ≤ 32767 := by
  unfold encode_quant
  split_ifs
  · exact clamp16_range _
  · exact clamp16_range _

theorem encode_quant_index_range (d val : Int) (p : predictor) :
    0 ≤ (encode_quant d val p).2.index ∧ (encode_quant d val p).2.index ≤ max_index d := by
  unfold encode_quant max_index
  split_ifs
  · exact clamp_index_range _ 88 (by omega)
  · exact clamp_index_range _ 10 (by omega)

theorem encode_quant_step (d val : Int) (p : predictor) :
    (encode_quant d val p).2.step = step_of d (encode_quant d val p).2.index := by
  unfold encode_quant step_of
  split_ifs <;> rfl

theorem decode_dequant_valpred_range (d delta : Int) (p : predictor) :
    -32768 ≤ (decode_dequant d delta p).valpred ∧ (decode_dequant d delta p).valpred ≤ 32767 := by
  unfold decode_dequant
  split_ifs
  · exact clamp16_range _
  · exact clamp16_range _

theorem decode_dequant_index_range (d delta : Int) (p : predictor) :
    0 ≤ (decode_dequant d delta p).index ∧ (decode_dequant d delta p).index ≤ max_index d := by
  unfold decode_dequant max_index
  split_ifs
  · exact clamp_index_range _ 88 (by omega)
  · exact clamp_index_range _ 10 (by omega)

theorem decode_dequant_step (d delta : Int) (p : predictor) :
    (decode_dequant d delta p).step = step_of d (decode_dequant d delta p).index := by
  unfold decode_dequant step_of
  split_ifs <;> rfl

/-- The code of a DVI encoder iteration is one of `0..15`, with bit 3 the sign of
the difference. -/
theorem encode_quant4_code (val : Int) (p : predictor) :
    0 ≤ (encode_quant4 val p).1 ∧ (encode_quant4 val p).1 ≤ 15 ∧
    c_and (encode_quant4 val p).1 8 = (if val - p.valpred < 0 then 8 else 0) := by
  simp only [encode_quant4]
  split_ifs <;> decide

/-- The code of a G726-16 encoder iteration is one of `0..3`, with bit 1 the sign
of the difference. -/
theorem encode_quant2_code (val : Int) (p : predictor) :
    0 ≤ (encode_quant2 val p).1 ∧ (encode_quant2 val p).1 ≤ 3 ∧
    c_and (encode_quant2 val p).1 2 = (if val - p.valpred < 0 then 2 else 0) := by
  simp only [encode_quant2]
  split_ifs <;> decide

/-! ## The encoder loop -/

theorem encode_iter_cons (d e x : Int) (src : List Int) (p : predictor) (k : packer) :
    encode_iter d e { src := x :: src, pred := p, pack := k } =
      some { src := src, pred := (encode_quant d (sample_of e x) p).2,
             pack := encode_put d (encode_quant d (sample_of e x) p).1 k } := by
  simp only [encode_iter, read_sample, encode_quant, encode_put, sample_of]
  split_ifs <;> rfl

theorem encode_iter_nil (d e : Int) (p : predictor) (k : packer) :
    encode_iter d e { src := [], pred := p, pack := k } = none := by
  simp [encode_iter, read_sample]

/-- The encoder loop over the samples `vals` that lie before `rest` in the buffer. -/
theorem encode_loop_run (d e : Int) (vals rest : List Int) (p : predictor) (k : packer) :
    encode_loop d e vals.length { src := vals ++ rest, pred := p, pack := k } =
      some { src := rest, pred := encode_final d p (vals.map (sample_of e)),
             pack := encode_puts d k (encode_codes d p (vals.map (sample_of e))) } := by
  induction vals generalizing p k with
  | nil => rfl
  | cons x xs ih =>
    simp only [List.length_cons, List.cons_append, encode_loop, encode_iter_cons]
    rw [ih]
    rfl

/-- The encoder loop reads out of the buffer when it has more iterations to run
than there are samples left. -/
theorem encode_loop_short (d e : Int) (n : Nat) (l : enc_locals) (h : l.src.length < n) :
    encode_loop d e n l = none := by
  induction n generalizing l with
  | zero => omega
  | succ n ih =>
    obtain ⟨src, p, k⟩ := l
    cases src with
    | nil => simp [encode_loop, encode_iter_nil]
    | cons x xs =>
      simp only [encode_loop, encode_iter_cons]
      apply ih
      simp only [List.length_cons] at h
      simp only
      omega

/-- A call of the encoder whose buffer holds the element `x0`, then the `vals` the
loop runs over, then `rest`. -/
theorem dvi_adpcm_encode_run (x0 : Int) (vals rest : List Int) (in_size : Int)
    (header : audio_descr_t) (state : dvi_adpcm_state) (flag : Int)
    (hv : header.encoding = AE_L16 ∨ header.encoding = AE_PCMU)
    (hn : (if header.encoding = AE_L16 then Int.tdiv in_size 2 else in_size)
            = (vals.length : Int)) :
    dvi_adpcm_encode (x0 :: (vals ++ rest)) in_size header state flag =
      some { ret := 0,
             out := pack_codes state.dvi2bit
               (encode_codes state.dvi2bit
                 { valpred := sample_of header.encoding x0, index := state.index,
                   step := step_of state.dvi2bit state.index }
                 (vals.map (sample_of header.encoding))),
             out_size := some (if state.dvi2bit ≠ 0 then Int.tdiv (vals.length : Int) 2
                               else Int.tdiv (vals.length : Int) 4),
             state :=
               { valpred := (encode_final state.dvi2bit
                   { valpred := sample_of header.encoding x0, index := state.index,
                     step := step_of state.dvi2bit state.index }
                   (vals.map (sample_of header.encoding))).valpred,
                 index := (encode_final state.dvi2bit
                   { valpred := sample_of header.encoding x0, index := state.index,
                     step := step_of state.dvi2bit state.index }
                   (vals.map (sample_of header.encoding))).index,
                 dvi2bit := state.dvi2bit } } := by
  unfold dvi_adpcm_encode
  rw [if_pos hv]
  simp only [hn, read_sample, Int.toNat_ofNat, encode_start]
  have h := encode_loop_run state.dvi2bit header.encoding vals rest
    { valpred := sample_of header.encoding x0, index := state.index,
      step := step_of state.dvi2bit state.index }
    { outputbuffer := 0, bufferstep := 1, out := [] }
  simp only [sample_of, step_of] at h ⊢
  rw [h]
  rfl

theorem encode_puts4 (d : Int) (hd : d ≠ 0) (ob : Int) (out cs : List Int) :
    encode_flush d (encode_puts d { outputbuffer := ob, bufferstep := 1, out := out } cs)
      = out ++ bytes4 cs := by
  induction cs using bytes4.induct generalizing ob out with
  | case1 a b t ih =>
    have := ih (c_and (c_shl a 4) 0xf0) (out ++ [schar_store (c_or (c_and b 0x0f) (c_and (c_shl a 4) 0xf0))])
    simp only [encode_puts, List.foldl_cons, encode_put, if_pos hd, encode_put4, bytes4,
      List.append_assoc, List.singleton_append] at this ⊢
    simpa [c_not] using this
  | case2 a =>
    simp [encode_puts, encode_put, if_pos hd, encode_put4, bytes4, encode_flush, c_not, hd]
  | case3 =>
    simp [encode_puts, bytes4, encode_flush, c_not]

theorem encode_puts2 (ob : Int) (out cs : List Int) :
    encode_flush 0 (encode_puts 0 { outputbuffer := ob, bufferstep := 1, out := out } cs)
      = out ++ bytes2 cs := by
  induction cs using bytes2.induct generalizing ob out with
  | case1 a b c e t ih =>
    have := ih (c_or (c_or (c_and (c_shl a 6) 0xc0) (c_and (c_shl b 4) 0x30))
        (c_and (c_shl c 2) 0x0c))
      (out ++ [schar_store (c_or (c_and e 0x03)
      (c_or (c_or (c_and (c_shl a 6) 0xc0) (c_and (c_shl b 4) 0x30))
        (c_and (c_shl c 2) 0x0c)))])
    simp only [encode_puts, List.foldl_cons, encode_put, encode_put2, bytes2,
      List.append_assoc, List.singleton_append] at this ⊢
    simpa [Int.tmod] using this
  | case2 cs h =>
    have hb : bytes2 cs = [] := by
      unfold bytes2
      split
      · exact absurd rfl (h _ _ _ _ _)
      · rfl
    rw [hb]
    match cs, h with
    | [], _ => simp [encode_puts, encode_flush]
    | [a], _ => simp [encode_puts, encode_flush, encode_put, encode_put2]
    | [a, b], _ => simp [encode_puts, encode_flush, encode_put, encode_put2, Int.tmod]
    | [a, b, c], _ => simp [encode_puts, encode_flush, encode_put, encode_put2, Int.tmod]
    | a :: b :: c :: e :: t, h => exact absurd rfl (h a b c e t)

/-! ## The decoder loop -/

theorem decode_loop_add (d e : Int) (m n : Nat) (l : dec_locals) :
    decode_loop d e (m + n) l = (decode_loop d e m l).bind (decode_loop d e n) := by
  induction m generalizing l with
  | zero => simp [decode_loop]
  | succ m ih =>
    rw [Nat.succ_add]
    simp only [decode_loop]
    cases decode_iter d e l with
    | none => rfl
    | some l1 => exact ih l1

theorem decode_loop_byte (d e b ib : Int) (bs : List Int) (p : predictor) (out : List Int) :
    decode_loop d e (codes_per_byte d)
        { unpack := { in_sbuf := b :: bs, inputbuffer := ib, bufferstep := 0 },
          pred := p, out := out } =
      some { unpack := { in_sbuf := bs, inputbuffer := schar_load b, bufferstep := 0 },
             pred := decode_final d p (byte_codes d b),
             out := out ++ decode_samples d e p (byte_codes d b) } := by
  by_cases hd : d = 0
  · subst hd
    simp [codes_per_byte, decode_loop, decode_iter, decode_get2, Int.tmod, byte_codes,
      decode_final, decode_samples, decode_preds, decode_dequant]
  · simp [codes_per_byte, hd, decode_loop, decode_iter, decode_get4, c_not, byte_codes,
      decode_final, decode_samples, decode_preds, decode_dequant]

theorem decode_preds_append (d : Int) (p : predictor) (xs ys : List Int) :
    decode_preds d p (xs ++ ys) = decode_preds d p xs ++ decode_preds d (decode_final d p xs) ys := by
  induction xs generalizing p with
  | nil => rfl
  | cons x xs ih => simp [decode_preds, decode_final, ih]

theorem decode_samples_append (d e : Int) (p : predictor) (xs ys : List Int) :
    decode_samples d e p (xs ++ ys)
      = decode_samples d e p xs ++ decode_samples d e (decode_final d p xs) ys := by
  simp [decode_samples, decode_preds_append]

theorem decode_final_append (d : Int) (p : predictor) (xs ys : List Int) :
    decode_final d p (xs ++ ys) = decode_final d (decode_final d p xs) ys := by
  simp [decode_final]

theorem bytes_codes_append (d : Int) (xs ys : List Int) :
    bytes_codes d (xs ++ ys) = bytes_codes d xs ++ bytes_codes d ys := by
  induction xs with
  | nil => rfl
  | cons x xs ih => simp [bytes_codes, ih]

theorem byte_codes_length (d b : Int) : (byte_codes d b).length = codes_per_byte d := by
  unfold byte_codes codes_per_byte
  split_ifs <;> rfl

theorem bytes_codes_length (d : Int) (bs : List Int) :
    (bytes_codes d bs).length = codes_per_byte d * bs.length := by
  induction bs with
  | nil => rfl
  | cons b bs ih =>
    simp only [bytes_codes, List.length_append, byte_codes_length, ih, List.length_cons]
    ring

theorem decode_preds_length (d : Int) (p : predictor) (cs : List Int) :
    (decode_preds d p cs).length = cs.length := by
  induction cs generalizing p with
  | nil => rfl
  | cons c cs ih => simp [decode_preds, ih]

theorem decode_samples_length (d e : Int) (p : predictor) (cs : List Int) :
    (decode_samples d e p cs).length = cs.length := by
  simp [decode_samples, decode_preds_length]

/-- The decoder loop over the bytes `bs` that lie before `rest` in the buffer. -/
theorem decode_loop_run (d e ib : Int) (bs rest : List Int) (p : predictor) (out : List Int) :
    decode_loop d e (codes_per_byte d * bs.length)
        { unpack := { in_sbuf := bs ++ rest, inputbuffer := ib, bufferstep := 0 },
          pred := p, out := out } =
      some { unpack := { in_sbuf := rest, inputbuffer := last_loaded ib bs, bufferstep := 0 },
             pred := decode_final d p (bytes_codes d bs),
             out := out ++ decode_samples d e p (bytes_codes d bs) } := by
  induction bs generalizing ib p out with
  | nil => simp [decode_loop, last_loaded, bytes_codes, decode_final, decode_samples, decode_preds]
  | cons b bs ih =>
    have hlen : codes_per_byte d * (b :: bs).length
        = codes_per_byte d + codes_per_byte d * bs.length := by
      simp only [List.length_cons]; ring
    rw [hlen, decode_loop_add, List.cons_append, decode_loop_byte]
    simp only [Option.some_bind, ih, bytes_codes, decode_final_append, decode_samples_append,
      List.append_assoc, last_loaded, List.foldl_cons]

/-- A call of the decoder whose buffer holds the bytes `bs` the loop runs over,
then `rest`. -/
theorem dvi_adpcm_decode_run (bs rest : List Int) (header : audio_descr_t)
    (state : dvi_adpcm_state)
    (hv : header.encoding = AE_PCMU ∨ header.encoding = AE_L16) :
    dvi_adpcm_decode (bs ++ rest) (bs.length : Int) header state =
      some { ret := 0,
             out := decode_samples state.dvi2bit header.encoding
               { valpred := state.valpred, index := state.index,
                 step := step_of state.dvi2bit state.index }
               (bytes_codes state.dvi2bit bs),
             out_size := some (if header.encoding = AE_PCMU
               then (bs.length : Int) * (codes_per_byte state.dvi2bit : Int)
               else (bs.length : Int) * (codes_per_byte state.dvi2bit : Int) * 2),
             unread := rest,
             state :=
               { valpred := (decode_final state.dvi2bit
                   { valpred := state.valpred, index := state.index,
                     step := step_of state.dvi2bit state.index }
                   (bytes_codes state.dvi2bit bs)).valpred,
                 index := (decode_final state.dvi2bit
                   { valpred := state.valpred, index := state.index,
                     step := step_of state.dvi2bit state.index }
                   (bytes_codes state.dvi2bit bs)).index,
                 dvi2bit := state.dvi2bit } } := by
  unfold dvi_adpcm_decode
  simp only [if_pos hv]
  have hcount : ((bs.length : Int) * (if state.dvi2bit ≠ 0 then 2 else 4)).toNat
      = codes_per_byte state.dvi2bit * bs.length := by
    unfold codes_per_byte
    split_ifs <;> omega
  have hcast : (if state.dvi2bit ≠ 0 then (2 : Int) else 4)
      = (codes_per_byte state.dvi2bit : Int) := by
    unfold codes_per_byte
    split_ifs <;> rfl
  rw [hcount, hcast]
  have h := decode_loop_run state.dvi2bit header.encoding 0 bs rest
    { valpred := state.valpred, index := state.index,
      step := step_of state.dvi2bit state.index } []
  simp only [step_of, decode_start] at h ⊢
  rw [h]
  simp

/-! ## Layout of the packed bytes -/

theorem bytes4_length (cs : List Int) : (bytes4 cs).length = (cs.length + 1) / 2 := by
  induction cs using bytes4.induct with
  | case1 a b t ih => simp only [bytes4, List.length_cons, ih]; omega
  | case2 a => simp [bytes4]
  | case3 => simp [bytes4]

theorem bytes2_length (cs : List Int) : (bytes2 cs).length = cs.length / 4 := by
  induction cs using bytes2.induct with
  | case1 a b c e t ih => simp only [bytes2, List.length_cons, ih]; omega
  | case2 cs h =>
    have hb : bytes2 cs = [] := by
      unfold bytes2
      split
      · exact absurd rfl (h _ _ _ _ _)
      · rfl
    rw [hb]
    match cs, h with
    | [], _ => simp
    | [a], _ => simp
    | [a, b], _ => simp
    | [a, b, c], _ => simp
    | a :: b :: c :: e :: t, h => exact absurd rfl (h a b c e t)

theorem bytes4_pair (cs : List Int) (k : Nat) (h : 2 * k + 1 < cs.length) :
    (bytes4 cs)[k]? = some (schar_store (c_or (c_and (cs.getD (2 * k + 1) 0) 0x0f)
      (c_and (c_shl (cs.getD (2 * k) 0) 4) 0xf0))) := by
  induction cs using bytes4.induct generalizing k with
  | case1 a b t ih =>
    cases k with
    | zero => simp [bytes4]
    | succ k =>
      have h1 : 2 * (k + 1) + 1 = (2 * k + 1) + 1 + 1 := by ring
      have h2 : 2 * (k + 1) = (2 * k) + 1 + 1 := by ring
      have hk : 2 * k + 1 < t.length := by simp only [List.length_cons] at h; omega
      rw [h1, h2]
      simp only [bytes4, List.getElem?_cons_succ, List.getD_cons_succ]
      exact ih k hk
  | case2 a => simp only [List.length_singleton] at h; omega
  | case3 => simp only [List.length_nil] at h; omega

theorem bytes4_last (cs : List Int) (h : cs.length % 2 = 1) :
    (bytes4 cs)[cs.length / 2]? =
      some (schar_store (c_and (c_shl (cs.getD (cs.length - 1) 0) 4) 0xf0)) := by
  induction cs using bytes4.induct with
  | case1 a b t ih =>
    have ht : t.length % 2 = 1 := by simp only [List.length_cons] at h; omega
    have h1 : (a :: b :: t).length / 2 = t.length / 2 + 1 := by
      simp only [List.length_cons]; omega
    have h2 : (a :: b :: t).length - 1 = (t.length - 1) + 1 + 1 := by
      simp only [List.length_cons]; omega
    rw [h1, h2]
    simp only [bytes4, List.getElem?_cons_succ, List.getD_cons_succ]
    exact ih ht
  | case2 a => simp [bytes4]
  | case3 => simp at h

theorem bytes2_quad (cs : List Int) (k : Nat) (h : 4 * k + 3 < cs.length) :
    (bytes2 cs)[k]? = some (schar_store (c_or (c_and (cs.getD (4 * k + 3) 0) 0x03)
      (c_or (c_or (c_and (c_shl (cs.getD (4 * k) 0) 6) 0xc0)
          (c_and (c_shl (cs.getD (4 * k + 1) 0) 4) 0x30))
        (c_and (c_shl (cs.getD (4 * k + 2) 0) 2) 0x0c)))) := by
  induction cs using bytes2.induct generalizing k with
  | case1 a b c e t ih =>
    cases k with
    | zero => simp [bytes2]
    | succ k =>
      have h0 : 4 * (k + 1) = (4 * k) + 1 + 1 + 1 + 1 := by ring
      have h1 : 4 * (k + 1) + 1 = (4 * k + 1) + 1 + 1 + 1 + 1 := by ring
      have h2 : 4 * (k + 1) + 2 = (4 * k + 2) + 1 + 1 + 1 + 1 := by ring
      have h3 : 4 * (k + 1) + 3 = (4 * k + 3) + 1 + 1 + 1 + 1 := by ring
      have hk : 4 * k + 3 < t.length := by simp only [List.length_cons] at h; omega
      rw [h3, h2, h1, h0]
      simp only [bytes2, List.getElem?_cons_succ, List.getD_cons_succ]
      exact ih k hk
  | case2 cs hne =>
    match cs, hne, h with
    | [], _, h => simp only [List.length_nil] at h; omega
    | [a], _, h => simp only [List.length_cons, List.length_nil] at h; omega
    | [a, b], _, h => simp only [List.length_cons, List.length_nil] at h; omega
    | [a, b, c], _, h => simp only [List.length_cons, List.length_nil] at h; omega
    | a :: b :: c :: e :: t, hne, _ => exact absurd rfl (hne a b c e t)

/-- A full byte of the DVI coder is `(c0 << 4) | c1`. -/
theorem byte4_eq (a b : Int) (ha0 : 0 ≤ a) (ha : a ≤ 15) (hb0 : 0 ≤ b) (hb : b ≤ 15) :
    schar_store (c_or (c_and b 0x0f) (c_and (c_shl a 4) 0xf0)) = c_or (c_shl a 4) b := by
  interval_cases a <;> interval_cases b <;> decide

/-- The byte flushed for a last unpaired code is `c << 4`, its low nibble is zero. -/
theorem byte4_last_eq (a : Int) (ha0 : 0 ≤ a) (ha : a ≤ 15) :
    schar_store (c_and (c_shl a 4) 0xf0) = c_shl a 4 ∧ c_and (c_shl a 4) 0x0f = 0 := by
  interval_cases a <;> decide

/-- A byte of the G726-16 coder is `(c0 << 6) | (c1 << 4) | (c2 << 2) | c3`. -/
theorem byte2_eq (a b c e : Int) (ha0 : 0 ≤ a) (ha : a ≤ 3) (hb0 : 0 ≤ b) (hb : b ≤ 3)
    (hc0 : 0 ≤ c) (hc : c ≤ 3) (he0 : 0 ≤ e) (he : e ≤ 3) :
    schar_store (c_or (c_and e 0x03)
      (c_or (c_or (c_and (c_shl a 6) 0xc0) (c_and (c_shl b 4) 0x30))
        (c_and (c_shl c 2) 0x0c)))
      = c_or (c_or (c_or (c_shl a 6) (c_shl b 4)) (c_shl c 2)) e := by
  interval_cases a <;> interval_cases b <;> interval_cases c <;> interval_cases e <;> decide

theorem encode_codes_length (d : Int) (p : predictor) (vals : List Int) :
    (encode_codes d p vals).length = vals.length := by
  induction vals generalizing p with
  | nil => rfl
  | cons v vs ih => simp [encode_codes, ih]

theorem encode_preds_length (d : Int) (p : predictor) (vals : List Int) :
    (encode_preds d p vals).length = vals.length := by
  induction vals generalizing p with
  | nil => rfl
  | cons v vs ih => simp [encode_preds, ih]

theorem encode_codes4_range (d : Int) (hd : d ≠ 0) (p : predictor) (vals : List Int) :
    ∀ c ∈ encode_codes d p vals, 0 ≤ c ∧ c ≤ 15 := by
  induction vals generalizing p with
  | nil => simp [encode_codes]
  | cons v vs ih =>
    intro c hc
    simp only [encode_codes, List.mem_cons] at hc
    rcases hc with rfl | hc
    · simp only [encode_quant, if_pos hd]
      exact ⟨(encode_quant4_code v p).1, (encode_quant4_code v p).2.1⟩
    · exact ih _ c hc

theorem encode_codes2_range (p : predictor) (vals : List Int) :
    ∀ c ∈ encode_codes 0 p vals, 0 ≤ c ∧ c ≤ 3 := by
  induction vals generalizing p with
  | nil => simp [encode_codes]
  | cons v vs ih =>
    intro c hc
    simp only [encode_codes, List.mem_cons] at hc
    rcases hc with rfl | hc
    · simp only [encode_quant, ne_eq, not_true_eq_false, if_false]
      exact ⟨(encode_quant2_code v p).1, (encode_quant2_code v p).2.1⟩
    · exact ih _ c hc

theorem getD_mem_of_lt (cs : List Int) (i : Nat) (h : i < cs.length) : cs.getD i 0 ∈ cs := by
  rw [List.getD_eq_getElem cs 0 h]
  exact List.getElem_mem h

theorem sample_of_l16 (x : Int) : sample_of AE_L16 x = x := by
  unfold sample_of
  rw [if_neg (by decide)]

theorem map_sample_of_l16 (vals : List Int) : vals.map (sample_of AE_L16) = vals := by
  induction vals with
  | nil => rfl
  | cons v vs ih => simp [sample_of_l16, ih]

theorem pack_codes4 (d : Int) (hd : d ≠ 0) (cs : List Int) : pack_codes d cs = bytes4 cs := by
  unfold pack_codes
  rw [encode_puts4 d hd]
  rfl

theorem pack_codes2 (cs : List Int) : pack_codes 0 cs = bytes2 cs := by
  unfold pack_codes
  rw [encode_puts2]
  rfl

/-- A call of the encoder on linear 16-bit input: `in_size` is twice the number
of loop iterations. -/
theorem dvi_adpcm_encode_l16 (x0 : Int) (vals rest : List Int) (state : dvi_adpcm_state)
    (flag : Int) :
    dvi_adpcm_encode (x0 :: (vals ++ rest)) (2 * (vals.length : Int)) { encoding := AE_L16 }
        state flag =
      some { ret := 0,
             out := pack_codes state.dvi2bit
               (encode_codes state.dvi2bit
                 { valpred := x0, index := state.index,
                   step := step_of state.dvi2bit state.index } vals),
             out_size := some (if state.dvi2bit ≠ 0 then Int.tdiv (vals.length : Int) 2
                               else Int.tdiv (vals.length : Int) 4),
             state :=
               { valpred := (encode_final state.dvi2bit
                   { valpred := x0, index := state.index,
                     step := step_of state.dvi2bit state.index } vals).valpred,
                 index := (encode_final state.dvi2bit
                   { valpred := x0, index := state.index,
                     step := step_of state.dvi2bit state.index } vals).index,
                 dvi2bit := state.dvi2bit } } := by
  have h := dvi_adpcm_encode_run x0 vals rest (2 * (vals.length : Int)) { encoding := AE_L16 }
    state flag (Or.inl rfl) (by rw [if_pos rfl]; exact Int.mul_tdiv_cancel_left _ (by decide))
  simpa only [sample_of_l16, map_sample_of_l16] using h

/-! ## Invariants of the loops -/

theorem encode_loop_add (d e : Int) (m n : Nat) (l : enc_locals) :
    encode_loop d e (m + n) l = (encode_loop d e m l).bind (encode_loop d e n) := by
  induction m generalizing l with
  | zero => simp [encode_loop]
  | succ m ih =>
    rw [Nat.succ_add]
    simp only [encode_loop]
    cases encode_iter d e l with
    | none => rfl
    | some l1 => exact ih l1

theorem encode_loop_prefix (d e : Int) (m n : Nat) (l l2 : enc_locals)
    (h : encode_loop d e (m + n) l = some l2) : ∃ l1, encode_loop d e m l = some l1 := by
  rw [encode_loop_add] at h
  cases h1 : encode_loop d e m l with
  | none => rw [h1] at h; cases h
  | some l1 => exact ⟨l1, rfl⟩

theorem decode_loop_prefix (d e : Int) (m n : Nat) (l l2 : dec_locals)
    (h : decode_loop d e (m + n) l = some l2) : ∃ l1, decode_loop d e m l = some l1 := by
  rw [decode_loop_add] at h
  cases h1 : decode_loop d e m l with
  | none => rw [h1] at h; cases h
  | some l1 => exact ⟨l1, rfl⟩

theorem encode_iter_in_bounds (d e : Int) (l l1 : enc_locals)
    (h : encode_iter d e l = some l1) : in_bounds d l1.pred.valpred l1.pred.index := by
  obtain ⟨src, p, k⟩ := l
  cases src with
  | nil => rw [encode_iter_nil] at h; cases h
  | cons x xs =>
    rw [encode_iter_cons] at h
    cases h
    exact ⟨(encode_quant_valpred_range d _ p).1, (encode_quant_valpred_range d _ p).2,
      (encode_quant_index_range d _ p).1, (encode_quant_index_range d _ p).2⟩

theorem encode_loop_in_bounds (d e : Int) (n : Nat) (l l1 : enc_locals)
    (hl : in_bounds d l.pred.valpred l.pred.index)
    (h : encode_loop d e n l = some l1) : in_bounds d l1.pred.valpred l1.pred.index := by
  induction n generalizing l with
  | zero => simp only [encode_loop, Option.some.injEq] at h; rw [← h]; exact hl
  | succ n ih =>
    simp only [encode_loop] at h
    cases h1 : encode_iter d e l with
    | none => rw [h1] at h; cases h
    | some l2 =>
      rw [h1] at h
      exact ih l2 (encode_iter_in_bounds d e l l2 h1) h

theorem decode_iter_inv (d e : Int) (l l1 : dec_locals)
    (ho : ∀ x ∈ l.out, -32768 ≤ x ∧ x ≤ 32767)
    (h : decode_iter d e l = some l1) :
    in_bounds d l1.pred.valpred l1.pred.index ∧ ∀ x ∈ l1.out, -32768 ≤ x ∧ x ≤ 32767 := by
  have key : ∀ (delta : Int) (u : unpacker),
      l1 = dec_locals.mk u (decode_dequant d delta l.pred)
        (l.out ++ [write_sample e (decode_dequant d delta l.pred).valpred]) →
      in_bounds d l1.pred.valpred l1.pred.index ∧ ∀ x ∈ l1.out, -32768 ≤ x ∧ x ≤ 32767 := by
    intro delta u hl
    subst hl
    refine ⟨⟨(decode_dequant_valpred_range d _ _).1, (decode_dequant_valpred_range d _ _).2,
      (decode_dequant_index_range d _ _).1, (decode_dequant_index_range d _ _).2⟩, ?_⟩
    intro x hx
    simp only [List.mem_append, List.mem_singleton] at hx
    rcases hx with hx | hx
    · exact ho x hx
    · rw [hx]; exact write_sample_range _ _
  unfold decode_iter at h
  by_cases hd : d = 0
  · subst hd
    simp only [ne_eq, not_true_eq_false, if_false] at h
    cases hg : decode_get2 l.unpack with
    | none => rw [hg] at h; cases h
    | some q =>
      rw [hg] at h
      simp only [Option.some.injEq] at h
      exact key q.1 q.2 (by rw [← h]; simp [decode_dequant])
  · simp only [ne_eq, hd, not_false_eq_true, if_true] at h
    cases hg : decode_get4 l.unpack with
    | none => rw [hg] at h; cases h
    | some q =>
      rw [hg] at h
      simp only [Option.some.injEq] at h
      exact key q.1 q.2 (by rw [← h]; simp [decode_dequant, hd])

theorem decode_loop_inv (d e : Int) (n : Nat) (l l1 : dec_locals)
    (hl : in_bounds d l.pred.valpred l.pred.index)
    (ho : ∀ x ∈ l.out, -32768 ≤ x ∧ x ≤ 32767)
    (h : decode_loop d e n l = some l1) :
    in_bounds d l1.pred.valpred l1.pred.index ∧ ∀ x ∈ l1.out, -32768 ≤ x ∧ x ≤ 32767 := by
  induction n generalizing l with
  | zero => simp only [decode_loop, Option.some.injEq] at h; rw [← h]; exact ⟨hl, ho⟩
  | succ n ih =>
    simp only [decode_loop] at h
    cases h1 : decode_iter d e l with
    | none => rw [h1] at h; cases h
    | some l2 =>
      rw [h1] at h
      have h2 := decode_iter_inv d e l l2 ho h1
      exact ih l2 h2.1 h2.2 h

theorem toBits32_of_range (m : Int) (h0 : 0 ≤ m) (h1 : m < 4294967296) :
    toBits32 m = m.toNat := by
  unfold toBits32
  rw [Int.emod_eq_of_lt h0 h1]

theorem c_and_mask_range (x m : Int) (h0 : 0 ≤ m) (h1 : m < 2147483648) :
    0 ≤ c_and x m ∧ c_and x m ≤ m := by
  unfold c_and
  have hm : toBits32 m = m.toNat := toBits32_of_range m h0 (by omega)
  have hle : toBits32 x &&& toBits32 m ≤ m.toNat := by
    rw [hm]; exact Nat.and_le_right
  unfold ofBits32
  have hlt : toBits32 x &&& toBits32 m < 2147483648 := by omega
  rw [if_pos hlt]
  omega

theorem decode_get_code (d : Int) (u u1 : unpacker) (delta : Int)
    (h : decode_get d u = some (delta, u1)) :
    0 ≤ delta ∧ delta ≤ (if d ≠ 0 then 15 else 3) := by
  unfold decode_get at h
  by_cases hd : d = 0
  · subst hd
    simp only [ne_eq, not_true_eq_false, if_false] at h ⊢
    unfold decode_get2 at h
    split_ifs at h
    · cases hs : u.in_sbuf with
      | nil => simp [hs] at h
      | cons b bs =>
        simp only [hs, Option.some.injEq, Prod.mk.injEq] at h
        rw [← h.1]; exact c_and_mask_range _ 3 (by decide) (by decide)
    all_goals
      simp only [Option.some.injEq, Prod.mk.injEq] at h
      rw [← h.1]
      first
        | exact c_and_mask_range _ 3 (by decide) (by decide)
        | decide
  · simp only [ne_eq, hd, not_false_eq_true, if_true] at h ⊢
    unfold decode_get4 at h
    split_ifs at h
    · simp only [Option.some.injEq, Prod.mk.injEq] at h
      rw [← h.1]; exact c_and_mask_range _ 15 (by decide) (by decide)
    · cases hs : u.in_sbuf with
      | nil => simp [hs] at h
      | cons b bs =>
        simp only [hs, Option.some.injEq, Prod.mk.injEq] at h
        rw [← h.1]; exact c_and_mask_range _ 15 (by decide) (by decide)

theorem encode_quant_code (d val : Int) (p : predictor) :
    0 ≤ (encode_quant d val p).1 ∧ (encode_quant d val p).1 ≤ (if d ≠ 0 then 15 else 3) := by
  unfold encode_quant
  split_ifs
  · exact ⟨(encode_quant4_code val p).1, (encode_quant4_code val p).2.1⟩
  · exact ⟨(encode_quant2_code val p).1, (encode_quant2_code val p).2.1⟩

theorem decode_final_step (d : Int) (p : predictor) (cs : List Int)
    (hp : p.step = step_of d p.index) :
    (decode_final d p cs).step = step_of d (decode_final d p cs).index := by
  induction cs generalizing p with
  | nil => exact hp
  | cons c cs ih =>
    simp only [decode_final, List.foldl_cons]
    exact ih _ (decode_dequant_step d c p)

theorem decode_final_in_bounds (d : Int) (p : predictor) (cs : List Int)
    (hp : in_bounds d p.valpred p.index) :
    in_bounds d (decode_final d p cs).valpred (decode_final d p cs).index := by
  induction cs generalizing p with
  | nil => exact hp
  | cons c cs ih =>
    simp only [decode_final, List.foldl_cons]
    exact ih _ ⟨(decode_dequant_valpred_range d c p).1, (decode_dequant_valpred_range d c p).2,
      (decode_dequant_index_range d c p).1, (decode_dequant_index_range d c p).2⟩

theorem encode_final_in_bounds (d : Int) (p : predictor) (vals : List Int)
    (hp : in_bounds d p.valpred p.index) :
    in_bounds d (encode_final d p vals).valpred (encode_final d p vals).index := by
  induction vals generalizing p with
  | nil => exact hp
  | cons v vs ih =>
    simp only [encode_final, List.foldl_cons]
    exact ih _ ⟨(encode_quant_valpred_range d v p).1, (encode_quant_valpred_range d v p).2,
      (encode_quant_index_range d v p).1, (encode_quant_index_range d v p).2⟩

theorem decode_iter_out_length (d e : Int) (l l1 : dec_locals)
    (h : decode_iter d e l = some l1) : l1.out.length = l.out.length + 1 := by
  unfold decode_iter at h
  split_ifs at h
  · cases hg : decode_get4 l.unpack with
    | none => rw [hg] at h; cases h
    | some q =>
      rw [hg] at h
      simp only [Option.some.injEq] at h
      rw [← h]; simp
  · cases hg : decode_get2 l.unpack with
    | none => rw [hg] at h; cases h
    | some q =>
      rw [hg] at h
      simp only [Option.some.injEq] at h
      rw [← h]; simp

theorem decode_loop_out_length (d e : Int) (n : Nat) (l l1 : dec_locals)
    (h : decode_loop d e n l = some l1) : l1.out.length = l.out.length + n := by
  induction n generalizing l with
  | zero => simp only [decode_loop, Option.some.injEq] at h; rw [← h]; rfl
  | succ n ih =>
    simp only [decode_loop] at h
    cases h1 : decode_iter d e l with
    | none => rw [h1] at h; cases h
    | some l2 =>
      rw [h1] at h
      rw [ih l2 h, decode_iter_out_length d e l l2 h1]
      omega

/-! ## Unpacking and packing -/

theorem unpack_codes_run (d ib : Int) (bs rest : List Int) :
    unpack_codes d (codes_per_byte d * bs.length)
        { in_sbuf := bs ++ rest, inputbuffer := ib, bufferstep := 0 } =
      some (bytes_codes d bs,
        { in_sbuf := rest, inputbuffer := last_loaded ib bs, bufferstep := 0 }) := by
  induction bs generalizing ib with
  | nil => simp [unpack_codes, bytes_codes, last_loaded]
  | cons b bs ih =>
    by_cases hd : d = 0
    · subst hd
      have hlen : codes_per_byte 0 * (b :: bs).length
          = codes_per_byte 0 * bs.length + 1 + 1 + 1 + 1 := by
        simp only [List.length_cons, codes_per_byte]; simp; ring
      rw [hlen]
      simp only [unpack_codes, decode_get, decode_get2, List.cons_append, ne_eq,
        not_true_eq_false, if_false, Int.tmod]
      simp [ih, bytes_codes, byte_codes, last_loaded]
    · have hlen : codes_per_byte d * (b :: bs).length
          = codes_per_byte d * bs.length + 1 + 1 := by
        simp only [List.length_cons, codes_per_byte, if_pos hd]; ring
      rw [hlen]
      simp only [unpack_codes, decode_get, decode_get4, List.cons_append, if_pos hd, c_not]
      simp [ih, bytes_codes, byte_codes, last_loaded, hd]

/-- The two codes of a byte pack to the byte. -/
theorem byte4_roundtrip (b : Int) (h0 : 0 ≤ b) (h1 : b ≤ 255) :
    schar_store (c_or (c_and (c_and (schar_load b) 0xf) 0x0f)
      (c_and (c_shl (c_and (c_shr (schar_load b) 4) 0xf) 4) 0xf0)) = b := by
  interval_cases b <;> decide

/-- The four codes of a byte pack to the byte. -/
theorem byte2_roundtrip (b : Int) (h0 : 0 ≤ b) (h1 : b ≤ 255) :
    schar_store (c_or (c_and (c_and (schar_load b) 0x3) 0x03)
      (c_or (c_or (c_and (c_shl (c_and (c_shr (schar_load b) 6) 0x3) 6) 0xc0)
          (c_and (c_shl (c_and (c_shr (schar_load b) 4) 0x3) 4) 0x30))
        (c_and (c_shl (c_and (c_shr (schar_load b) 2) 0x3) 2) 0x0c))) = b := by
  interval_cases b <;> decide

theorem pack_bytes_codes (d : Int) (B : List Int) (hB : ∀ b ∈ B, 0 ≤ b ∧ b ≤ 255) :
    pack_codes d (bytes_codes d B) = B := by
  by_cases hd : d = 0
  · subst hd
    rw [pack_codes2]
    induction B with
    | nil => simp [bytes_codes, bytes2]
    | cons b bs ih =>
      have hb := hB b (List.mem_cons_self _ _)
      simp only [bytes_codes, byte_codes, ne_eq, not_true_eq_false, if_false,
        List.cons_append, List.nil_append, bytes2]
      rw [byte2_roundtrip b hb.1 hb.2]
      have ht := ih (fun x hx => hB x (List.mem_cons_of_mem _ hx))
      simpa using ht
  · rw [pack_codes4 d hd]
    induction B with
    | nil => simp [bytes_codes, bytes4]
    | cons b bs ih =>
      have hb := hB b (List.mem_cons_self _ _)
      simp only [bytes_codes, byte_codes, if_pos hd, List.cons_append, List.nil_append, bytes4]
      rw [byte4_roundtrip b hb.1 hb.2]
      have ht := ih (fun x hx => hB x (List.mem_cons_of_mem _ hx))
      simpa using ht

/-! ## The claims -/

/-- C1 (fails on the code).  The decoder started from predictor 0 does not follow
the encoder started from predictor 0: the encoder does not read `state->valpred`,
it takes its predictor from the first element of the input buffer and then runs
`in_size/2` iterations on the elements after it.  On the two samples
`[1000, 1000]` in 4-bit mode the call reads past the two-sample buffer; with the
buffer followed by a zero, as in `main`, the encoder's predictors after its two
iterations are `1000` and `989` and it writes the byte `0x0f`, from which the
decoder started at predictor 0 emits `0` and `-11`. -/
theorem roundtrip_from_init_diverges :
    dvi_adpcm_encode [1000, 1000] 4 { encoding := AE_L16 }
        { valpred := 0, index := 0, dvi2bit := 1 } 0 = none ∧
    dvi_adpcm_encode [1000, 1000, 0] 4 { encoding := AE_L16 }
        { valpred := 0, index := 0, dvi2bit := 1 } 0
      = some { ret := 0, out := [0x0f], out_size := some 1,
               state := { valpred := 989, index := 8, dvi2bit := 1 } } ∧
    (encode_preds 1 { valpred := 1000, index := 0, step := 7 } [1000, 0]).map
        (fun q => (q.valpred, q.index)) = [(1000, 0), (989, 8)] ∧
    dvi_adpcm_decode [0x0f] 1 { encoding := AE_L16 }
        { valpred := 0, index := 0, dvi2bit := 1 }
      = some { ret := 0, out := [0, -11], out_size := some 4, unread := [],
               state := { valpred := -11, index := 8, dvi2bit := 1 } } := by
  decide

/-- C2 (fails on the code).  Encoding in two calls with the state threaded through
differs from encoding in one call: every call takes its predictor from the first
element of its own input and not from `state->valpred`.  On the eight samples
`[0, 0, 0, 0, 100, 100, 100, 100]` (followed by one more element, which the code
reads) in 4-bit mode from the initial state, one call writes
`[0x00, 0x07, 0x77, 0x8d]` and ends in `(5, 27)`, the two calls on four samples
each write `[0x00, 0x07]` and `[0x08, 0x8f]` and end in `(78, 13)`. -/
theorem encode_chunks_diverge :
    dvi_adpcm_encode [0, 0, 0, 0, 100, 100, 100, 100, 0] 16 { encoding := AE_L16 }
        { valpred := 0, index := 0, dvi2bit := 1 } 0
      = some { ret := 0, out := [0x00, 0x07, 0x77, 0x8d], out_size := some 4,
               state := { valpred := 5, index := 27, dvi2bit := 1 } } ∧
    dvi_adpcm_encode [0, 0, 0, 0, 100, 100, 100, 100, 0] 8 { encoding := AE_L16 }
        { valpred := 0, index := 0, dvi2bit := 1 } 0
      = some { ret := 0, out := [0x00, 0x07], out_size := some 2,
               state := { valpred := 11, index := 8, dvi2bit := 1 } } ∧
    dvi_adpcm_encode [100, 100, 100, 100, 0] 8 { encoding := AE_L16 }
        { valpred := 11, index := 8, dvi2bit := 1 } 0
      = some { ret := 0, out := [0x08, 0x8f], out_size := some 2,
               state := { valpred := 78, index := 13, dvi2bit := 1 } } := by
  decide

/-- C3.  Decoding `B1 ++ B2` in one call gives the samples of decoding `B1` followed
by those of decoding `B2` from the state the first call left, and the same final
state; all three calls return 0. -/
theorem decode_chunks (B1 B2 : List Int) (header : audio_descr_t) (state : dvi_adpcm_state)
    (hv : header.encoding = AE_PCMU ∨ header.encoding = AE_L16)
    (hb : in_bounds state.dvi2bit state.valpred state.index) :
    ∃ r1 r2 r,
      dvi_adpcm_decode B1 (B1.length : Int) header state = some r1 ∧
      dvi_adpcm_decode B2 (B2.length : Int) header r1.state = some r2 ∧
      dvi_adpcm_decode (B1 ++ B2) ((B1 ++ B2).length : Int) header state = some r ∧
      r1.ret = 0 ∧ r2.ret = 0 ∧ r.ret = 0 ∧
      in_bounds r1.state.dvi2bit r1.state.valpred r1.state.index ∧
      r.out = r1.out ++ r2.out ∧ r.state = r2.state := by
  have e1 := dvi_adpcm_decode_run B1 [] header state hv
  have e := dvi_adpcm_decode_run (B1 ++ B2) [] header state hv
  have e2 := dvi_adpcm_decode_run B2 [] header
    { valpred := (decode_final state.dvi2bit
        { valpred := state.valpred, index := state.index,
          step := step_of state.dvi2bit state.index }
        (bytes_codes state.dvi2bit B1)).valpred,
      index := (decode_final state.dvi2bit
        { valpred := state.valpred, index := state.index,
          step := step_of state.dvi2bit state.index }
        (bytes_codes state.dvi2bit B1)).index,
      dvi2bit := state.dvi2bit } hv
  rw [List.append_nil] at e1 e e2
  have hstep := decode_final_step state.dvi2bit
    { valpred := state.valpred, index := state.index,
      step := step_of state.dvi2bit state.index } (bytes_codes state.dvi2bit B1) rfl
  have hq :
      predictor.mk
        (decode_final state.dvi2bit
          { valpred := state.valpred, index := state.index,
            step := step_of state.dvi2bit state.index }
          (bytes_codes state.dvi2bit B1)).valpred
        (decode_final state.dvi2bit
          { valpred := state.valpred, index := state.index,
            step := step_of state.dvi2bit state.index }
          (bytes_codes state.dvi2bit B1)).index
        (step_of state.dvi2bit (decode_final state.dvi2bit
          { valpred := state.valpred, index := state.index,
            step := step_of state.dvi2bit state.index }
          (bytes_codes state.dvi2bit B1)).index)
      = decode_final state.dvi2bit
        { valpred := state.valpred, index := state.index,
          step := step_of state.dvi2bit state.index }
        (bytes_codes state.dvi2bit B1) := by
    rw [← hstep]
  have hfin : in_bounds state.dvi2bit
      (decode_final state.dvi2bit
        { valpred := state.valpred, index := state.index,
          step := step_of state.dvi2bit state.index }
        (bytes_codes state.dvi2bit B1)).valpred
      (decode_final state.dvi2bit
        { valpred := state.valpred, index := state.index,
          step := step_of state.dvi2bit state.index }
        (bytes_codes state.dvi2bit B1)).index :=
    decode_final_in_bounds state.dvi2bit _ _ hb
  refine ⟨_, _, _, e1, e2, e, rfl, rfl, rfl, hfin, ?_, ?_⟩
  · simp only [bytes_codes_append, decode_samples_append, hq]
  · simp only [bytes_codes_append, decode_final_append, hq]

/-- C4.  State invariant.  From a state with the predictor in `[-32768, 32767]` and
the step index inside the table of the mode, on linear 16-bit data: after every
number `n` of iterations of the encoder loop (whose predictor starts at the first
element `x0` of the input, an `int16`) and of the decoder loop, the predictor is
in `[-32768, 32767]` and the step index inside the table, so that the step table
is read in range; the state written back by either call satisfies the invariant;
every sample the decoder has emitted lies in `[-32768, 32767]`; and every code
that indexes `indexTable` (`indexTable2`) is in `0..15` (`0..3`). -/
theorem state_invariant (state : dvi_adpcm_state)
    (hb : in_bounds state.dvi2bit state.valpred state.index) :
    (∀ (x0 : Int) (vals rest : List Int) (flag : Int), -32768 ≤ x0 → x0 ≤ 32767 →
      (∀ n, n ≤ vals.length →
        ∃ l, encode_loop state.dvi2bit AE_L16 n (encode_start state x0 (vals ++ rest)) = some l ∧
          in_bounds state.dvi2bit l.pred.valpred l.pred.index) ∧
      (∃ r, dvi_adpcm_encode (x0 :: (vals ++ rest)) (2 * (vals.length : Int))
              { encoding := AE_L16 } state flag = some r ∧
          r.state.dvi2bit = state.dvi2bit ∧
          in_bounds state.dvi2bit r.state.valpred r.state.index)) ∧
    (∀ (bytes rest : List Int),
      (∀ n, n ≤ codes_per_byte state.dvi2bit * bytes.length →
        ∃ l, decode_loop state.dvi2bit AE_L16 n (decode_start state (bytes ++ rest)) = some l ∧
          in_bounds state.dvi2bit l.pred.valpred l.pred.index ∧
          l.out.length = n ∧
          ∀ x ∈ l.out, -32768 ≤ x ∧ x ≤ 32767) ∧
      (∃ r, dvi_adpcm_decode (bytes ++ rest) (bytes.length : Int)
              { encoding := AE_L16 } state = some r ∧
          r.state.dvi2bit = state.dvi2bit ∧
          in_bounds state.dvi2bit r.state.valpred r.state.index ∧
          ∀ x ∈ r.out, -32768 ≤ x ∧ x ≤ 32767)) ∧
    (∀ (val : Int) (p : predictor),
      0 ≤ (encode_quant state.dvi2bit val p).1 ∧
      (encode_quant state.dvi2bit val p).1 ≤ (if state.dvi2bit ≠ 0 then 15 else 3)) ∧
    (∀ (u u1 : unpacker) (delta : Int), decode_get state.dvi2bit u = some (delta, u1) →
      0 ≤ delta ∧ delta ≤ (if state.dvi2bit ≠ 0 then 15 else 3)) := by
  obtain ⟨hv1, hv2, hi1, hi2⟩ := hb
  refine ⟨?_, ?_, encode_quant_code state.dvi2bit, decode_get_code state.dvi2bit⟩
  · intro x0 vals rest flag hx1 hx2
    have hstart : in_bounds state.dvi2bit
        (encode_start state x0 (vals ++ rest)).pred.valpred
        (encode_start state x0 (vals ++ rest)).pred.index := ⟨hx1, hx2, hi1, hi2⟩
    constructor
    · intro n hn
      have hrun := encode_loop_run state.dvi2bit AE_L16 vals rest
        (encode_start state x0 (vals ++ rest)).pred (encode_start state x0 (vals ++ rest)).pack
      have hsplit : vals.length = n + (vals.length - n) := by omega
      rw [hsplit] at hrun
      obtain ⟨l, hl⟩ := encode_loop_prefix _ _ _ _ _ _ hrun
      exact ⟨l, hl, encode_loop_in_bounds _ _ _ _ _ hstart hl⟩
    · rw [dvi_adpcm_encode_l16]
      exact ⟨_, rfl, rfl, encode_final_in_bounds _ _ _ ⟨hx1, hx2, hi1, hi2⟩⟩
  · intro bytes rest
    have hstart : in_bounds state.dvi2bit
        (decode_start state (bytes ++ rest)).pred.valpred
        (decode_start state (bytes ++ rest)).pred.index := ⟨hv1, hv2, hi1, hi2⟩
    constructor
    · intro n hn
      have hrun := decode_loop_run state.dvi2bit AE_L16 0 bytes rest
        (decode_start state (bytes ++ rest)).pred []
      have hsplit : codes_per_byte state.dvi2bit * bytes.length
          = n + (codes_per_byte state.dvi2bit * bytes.length - n) := by omega
      rw [hsplit] at hrun
      obtain ⟨l, hl⟩ := decode_loop_prefix _ _ _ _ _ _ hrun
      have hinv := decode_loop_inv _ _ _ _ _ hstart (by simp [decode_start]) hl
      have hlen := decode_loop_out_length _ _ _ _ _ hl
      simp only [List.length_nil, Nat.zero_add] at hlen
      exact ⟨l, hl, hinv.1, hlen, hinv.2⟩
    · rw [dvi_adpcm_decode_run bytes rest { encoding := AE_L16 } state (Or.inr rfl)]
      refine ⟨_, rfl, rfl, decode_final_in_bounds _ _ _ ⟨hv1, hv2, hi1, hi2⟩, ?_⟩
      intro x hx
      simp only [decode_samples, List.mem_map] at hx
      obtain ⟨q, _, rfl⟩ := hx
      exact write_sample_range _ _

/-- C5 (fails on the code).  The encoder reads one element more than the `N`
samples it is given: the first element initialises `valpred`
(`valpred = *s++`) and the loop then reads `N` further elements, so the element
at index `N` is read.  On a buffer of exactly `N` linear samples, for every `N`,
the call reads past the end; and for `N = 1` the result depends on the element
at index 1: the buffers `[0, 0]` and `[0, 16384]` agree on the one-sample slice
and give the output bytes `0x00` and `0x70`. -/
theorem encode_reads_past_input :
    (∀ (in_buf : List Int) (state : dvi_adpcm_state) (flag : Int),
      dvi_adpcm_encode in_buf (2 * (in_buf.length : Int)) { encoding := AE_L16 } state flag
        = none) ∧
    dvi_adpcm_encode [0, 0] 2 { encoding := AE_L16 }
        { valpred := 0, index := 0, dvi2bit := 1 } 0
      = some { ret := 0, out := [0x00], out_size := some 0,
               state := { valpred := 0, index := 0, dvi2bit := 1 } } ∧
    dvi_adpcm_encode [0, 16384] 2 { encoding := AE_L16 }
        { valpred := 0, index := 0, dvi2bit := 1 } 0
      = some { ret := 0, out := [0x70], out_size := some 0,
               state := { valpred := 11, index := 8, dvi2bit := 1 } } := by
  refine ⟨?_, by decide, by decide⟩
  intro in_buf state flag
  unfold dvi_adpcm_encode
  rw [if_pos (Or.inl rfl), if_pos rfl, Int.mul_tdiv_cancel_left _ (by decide)]
  cases in_buf with
  | nil => rfl
  | cons x xs =>
    simp only [read_sample, Int.toNat_ofNat]
    rw [encode_loop_short _ _ _ _ (by simp [encode_start])]

/-- C6 (fails on the code).  In 4-bit mode the encoder writes `ceil(N/2)` bytes
for `N` loop iterations but sets `*out_size` to `N/2` rounded down, computed
before the loop; the byte written by "Output last step, if needed" is not
counted.  For `N = 1`: one byte written, `*out_size = 0`. -/
theorem encode4_out_size_misses_last_byte :
    (∀ (x0 : Int) (vals rest : List Int) (valpred index flag : Int),
      ∃ r, dvi_adpcm_encode (x0 :: (vals ++ rest)) (2 * (vals.length : Int))
              { encoding := AE_L16 } { valpred := valpred, index := index, dvi2bit := 1 } flag
            = some r ∧
        r.out.length = (vals.length + 1) / 2 ∧
        r.out_size = some (((vals.length / 2 : Nat) : Int))) ∧
    dvi_adpcm_encode [0, 0] 2 { encoding := AE_L16 }
        { valpred := 0, index := 0, dvi2bit := 1 } 0
      = some { ret := 0, out := [0x00], out_size := some 0,
               state := { valpred := 0, index := 0, dvi2bit := 1 } } := by
  refine ⟨?_, by decide⟩
  intro x0 vals rest valpred index flag
  rw [dvi_adpcm_encode_l16]
  refine ⟨_, rfl, ?_, ?_⟩
  · simp only [pack_codes4 1 (by decide), bytes4_length, encode_codes_length]
  · simp only [ne_eq, one_ne_zero, not_false_eq_true, if_true, Option.some.injEq]
    rw [Int.tdiv_eq_ediv] <;> omega

/-- C7.  Layout of the 4-bit stream.  In 4-bit mode, on linear 16-bit input, let
`codes` be the codes computed by the successive loop iterations (on the elements
`vals` that follow the first element `x0` of the buffer).  Every code is in
`0..15` and its bit 3 is the sign of the difference; output byte `k` is
`(codes[2k] << 4) | codes[2k+1]` whenever `2k+1 < N`; and when `N` is odd the
last byte written is `codes[N-1] << 4`, whose low nibble is zero.  The call
writes `ceil(N/2)` bytes. -/
theorem encode4_layout (x0 : Int) (vals rest : List Int) (state : dvi_adpcm_state)
    (flag : Int) (h4 : state.dvi2bit ≠ 0) :
    ∃ r, dvi_adpcm_encode (x0 :: (vals ++ rest)) (2 * (vals.length : Int))
            { encoding := AE_L16 } state flag = some r ∧
      r.out.length = (vals.length + 1) / 2 ∧
      (encode_codes state.dvi2bit
        { valpred := x0, index := state.index, step := step_of state.dvi2bit state.index }
        vals).length = vals.length ∧
      (∀ i, i < vals.length →
        0 ≤ (encode_codes state.dvi2bit
          { valpred := x0, index := state.index, step := step_of state.dvi2bit state.index }
          vals).getD i 0 ∧
        (encode_codes state.dvi2bit
          { valpred := x0, index := state.index, step := step_of state.dvi2bit state.index }
          vals).getD i 0 ≤ 15) ∧
      (∀ (val : Int) (p : predictor),
        c_and (encode_quant state.dvi2bit val p).1 8 = (if val - p.valpred < 0 then 8 else 0)) ∧
      (∀ k, 2 * k + 1 < vals.length →
        r.out[k]? = some (c_or
          (c_shl ((encode_codes state.dvi2bit
            { valpred := x0, index := state.index, step := step_of state.dvi2bit state.index }
            vals).getD (2 * k) 0) 4)
          ((encode_codes state.dvi2bit
            { valpred := x0, index := state.index, step := step_of state.dvi2bit state.index }
            vals).getD (2 * k + 1) 0))) ∧
      (vals.length % 2 = 1 →
        r.out[vals.length / 2]? = some (c_shl ((encode_codes state.dvi2bit
            { valpred := x0, index := state.index, step := step_of state.dvi2bit state.index }
            vals).getD (vals.length - 1) 0) 4) ∧
        c_and (c_shl ((encode_codes state.dvi2bit
            { valpred := x0, index := state.index, step := step_of state.dvi2bit state.index }
            vals).getD (vals.length - 1) 0) 4) 0x0f = 0) := by
  rw [dvi_adpcm_encode_l16]
  have hlen := encode_codes_length state.dvi2bit
    { valpred := x0, index := state.index, step := step_of state.dvi2bit state.index } vals
  have hrange : ∀ i, i < vals.length →
      0 ≤ (encode_codes state.dvi2bit
        { valpred := x0, index := state.index, step := step_of state.dvi2bit state.index }
        vals).getD i 0 ∧
      (encode_codes state.dvi2bit
        { valpred := x0, index := state.index, step := step_of state.dvi2bit state.index }
        vals).getD i 0 ≤ 15 := by
    intro i hi
    exact encode_codes4_range state.dvi2bit h4 _ vals _
      (getD_mem_of_lt _ i (by rw [hlen]; exact hi))
  refine ⟨_, rfl, ?_, hlen, hrange, ?_, ?_, ?_⟩
  · simp only [pack_codes4 state.dvi2bit h4, bytes4_length, hlen]
  · intro val p
    simp only [encode_quant, if_pos h4]
    exact (encode_quant4_code val p).2.2
  · intro k hk
    simp only [pack_codes4 state.dvi2bit h4]
    rw [bytes4_pair _ k (by rw [hlen]; exact hk)]
    rw [byte4_eq _ _ (hrange (2 * k) (by omega)).1 (hrange (2 * k) (by omega)).2
      (hrange (2 * k + 1) hk).1 (hrange (2 * k + 1) hk).2]
  · intro hodd
    have hn : vals.length - 1 < vals.length := by omega
    have hb := byte4_last_eq _ (hrange (vals.length - 1) hn).1 (hrange (vals.length - 1) hn).2
    refine ⟨?_, hb.2⟩
    simp only [pack_codes4 state.dvi2bit h4]
    have hl := bytes4_last (encode_codes state.dvi2bit
        { valpred := x0, index := state.index, step := step_of state.dvi2bit state.index }
        vals) (by rw [hlen]; exact hodd)
    rw [hlen] at hl
    rw [hl, hb.1]

/-- C8.  Layout and tail of the 2-bit stream.  In 2-bit mode, on linear 16-bit
input, let `codes` be the codes computed by the successive loop iterations (on
the elements `vals` that follow the first element `x0` of the buffer).  The call
writes `N/4` bytes, rounded down, and reports that count in `*out_size`; every
code is in `0..3` and its bit 1 is the sign of the difference; output byte `k`
is `(codes[4k] << 6) | (codes[4k+1] << 4) | (codes[4k+2] << 2) | codes[4k+3]`.
As the call writes no further byte, the codes of an incomplete last group are
not emitted. -/
theorem encode2_layout (x0 : Int) (vals rest : List Int) (state : dvi_adpcm_state)
    (flag : Int) (h2 : state.dvi2bit = 0) :
    ∃ r, dvi_adpcm_encode (x0 :: (vals ++ rest)) (2 * (vals.length : Int))
            { encoding := AE_L16 } state flag = some r ∧
      r.out.length = vals.length / 4 ∧
      r.out_size = some (((vals.length / 4 : Nat) : Int)) ∧
      (encode_codes state.dvi2bit
        { valpred := x0, index := state.index, step := step_of state.dvi2bit state.index }
        vals).length = vals.length ∧
      (∀ i, i < vals.length →
        0 ≤ (encode_codes state.dvi2bit
          { valpred := x0, index := state.index, step := step_of state.dvi2bit state.index }
          vals).getD i 0 ∧
        (encode_codes state.dvi2bit
          { valpred := x0, index := state.index, step := step_of state.dvi2bit state.index }
          vals).getD i 0 ≤ 3) ∧
      (∀ (val : Int) (p : predictor),
        c_and (encode_quant state.dvi2bit val p).1 2 = (if val - p.valpred < 0 then 2 else 0)) ∧
      (∀ k, 4 * k + 3 < vals.length →
        r.out[k]? = some (c_or (c_or (c_or
          (c_shl ((encode_codes state.dvi2bit
            { valpred := x0, index := state.index, step := step_of state.dvi2bit state.index }
            vals).getD (4 * k) 0) 6)
          (c_shl ((encode_codes state.dvi2bit
            { valpred := x0, index := state.index, step := step_of state.dvi2bit state.index }
            vals).getD (4 * k + 1) 0) 4))
          (c_shl ((encode_codes state.dvi2bit
            { valpred := x0, index := state.index, step := step_of state.dvi2bit state.index }
            vals).getD (4 * k + 2) 0) 2))
          ((encode_codes state.dvi2bit
            { valpred := x0, index := state.index, step := step_of state.dvi2bit state.index }
            vals).getD (4 * k + 3) 0))) := by
  rw [dvi_adpcm_encode_l16]
  rw [h2]
  have hlen := encode_codes_length 0
    { valpred := x0, index := state.index, step := step_of 0 state.index } vals
  have hrange : ∀ i, i < vals.length →
      0 ≤ (encode_codes 0
        { valpred := x0, index := state.index, step := step_of 0 state.index }
        vals).getD i 0 ∧
      (encode_codes 0
        { valpred := x0, index := state.index, step := step_of 0 state.index }
        vals).getD i 0 ≤ 3 := by
    intro i hi
    exact encode_codes2_range _ vals _ (getD_mem_of_lt _ i (by rw [hlen]; exact hi))
  refine ⟨_, rfl, ?_, ?_, hlen, hrange, ?_, ?_⟩
  · simp only [pack_codes2, bytes2_length, hlen]
  · simp only [ne_eq, not_true_eq_false, if_false, Option.some.injEq]
    rw [Int.tdiv_eq_ediv] <;> omega
  · intro val p
    simp only [encode_quant, ne_eq, not_true_eq_false, if_false]
    exact (encode_quant2_code val p).2.2
  · intro k hk
    simp only [pack_codes2]
    rw [bytes2_quad _ k (by rw [hlen]; exact hk)]
    rw [byte2_eq _ _ _ _ (hrange (4 * k) (by omega)).1 (hrange (4 * k) (by omega)).2
      (hrange (4 * k + 1) (by omega)).1 (hrange (4 * k + 1) (by omega)).2
      (hrange (4 * k + 2) (by omega)).1 (hrange (4 * k + 2) (by omega)).2
      (hrange (4 * k + 3) hk).1 (hrange (4 * k + 3) hk).2]

/-- C9.  On any bytes, from an in-bounds state and with linear 16-bit output, the
decoder returns 0, reads exactly the `B = in_size` bytes it is given (the call
does not read past them and leaves what follows them unread), emits `2*B`
samples in 4-bit mode and `4*B` in 2-bit mode, and sets `*out_size` to twice the
number of samples. -/
theorem decode_counts (bytes rest : List Int) (state : dvi_adpcm_state)
    (hb : in_bounds state.dvi2bit state.valpred state.index) :
    ∃ r, dvi_adpcm_decode (bytes ++ rest) (bytes.length : Int) { encoding := AE_L16 } state
          = some r ∧
      r.ret = 0 ∧ r.unread = rest ∧
      (state.dvi2bit ≠ 0 → r.out.length = 2 * bytes.length) ∧
      (state.dvi2bit = 0 → r.out.length = 4 * bytes.length) ∧
      r.out_size = some (2 * (r.out.length : Int)) ∧
      in_bounds r.state.dvi2bit r.state.valpred r.state.index := by
  rw [dvi_adpcm_decode_run bytes rest { encoding := AE_L16 } state (Or.inr rfl)]
  refine ⟨_, rfl, rfl, rfl, ?_, ?_, ?_, decode_final_in_bounds _ _ _ hb⟩
  · intro h4
    simp only [decode_samples_length, bytes_codes_length, codes_per_byte, if_pos h4]
  · intro h2
    simp only [decode_samples_length, bytes_codes_length, codes_per_byte, h2, ne_eq,
      not_true_eq_false, if_false]
  · simp only [decode_samples_length, bytes_codes_length]
    rw [if_neg (by decide)]
    congr 1
    push_cast
    ring

/-- C10.  Packing bijection.  For bytes `B` (values `0..255`) and either mode,
the codes that the decoder's Step 1 extracts from `B` in its `2*|B|` (4-bit) or
`4*|B|` (2-bit) iterations use up `B`, and the bytes the encoder's Step 6 (with
the output of the last step) writes for these codes are `B` again. -/
theorem unpack_then_pack (state : dvi_adpcm_state) (B : List Int)
    (hB : ∀ b ∈ B, 0 ≤ b ∧ b ≤ 255) :
    ∃ codes u,
      unpack_codes state.dvi2bit (codes_per_byte state.dvi2bit * B.length)
        (decode_start state B).unpack = some (codes, u) ∧
      u.in_sbuf = [] ∧
      codes.length = codes_per_byte state.dvi2bit * B.length ∧
      pack_codes state.dvi2bit codes = B := by
  have h := unpack_codes_run state.dvi2bit 0 B []
  rw [List.append_nil] at h
  exact ⟨_, _, h, rfl, bytes_codes_length _ _, pack_bytes_codes _ _ hB⟩

/-! ## The theorems at concrete inputs -/

theorem decode_chunks_witness :
    (AE_L16 = AE_PCMU ∨ AE_L16 = AE_L16) ∧ in_bounds 1 0 0 ∧
    ∃ r1 r2 r,
      dvi_adpcm_decode [0x77] 1 { encoding := AE_L16 }
        { valpred := 0, index := 0, dvi2bit := 1 } = some r1 ∧
      dvi_adpcm_decode [0x8f] 1 { encoding := AE_L16 } r1.state = some r2 ∧
      dvi_adpcm_decode [0x77, 0x8f] 2 { encoding := AE_L16 }
        { valpred := 0, index := 0, dvi2bit := 1 } = some r ∧
      r1.ret = 0 ∧ r2.ret = 0 ∧ r.ret = 0 ∧
      in_bounds r1.state.dvi2bit r1.state.valpred r1.state.index ∧
      r.out = r1.out ++ r2.out ∧ r.state = r2.state :=
  ⟨Or.inr rfl, by decide,
    decode_chunks [0x77] [0x8f] { encoding := AE_L16 }
      { valpred := 0, index := 0, dvi2bit := 1 } (Or.inr rfl) (by decide)⟩

theorem state_invariant_witness :
    in_bounds (dvi_adpcm_init_state { valpred := 5, index := 7, dvi2bit := 1 }).dvi2bit
      (dvi_adpcm_init_state { valpred := 5, index := 7, dvi2bit := 1 }).valpred
      (dvi_adpcm_init_state { valpred := 5, index := 7, dvi2bit := 1 }).index ∧
    (∃ r, dvi_adpcm_encode (0 :: ([32767, -32768, 32767, 0] ++ [])) (2 * (4 : Nat))
            { encoding := AE_L16 }
            (dvi_adpcm_init_state { valpred := 5, index := 7, dvi2bit := 1 }) 0 = some r ∧
        r.state.dvi2bit = 0 ∧ in_bounds 0 r.state.valpred r.state.index) ∧
    (∃ r, dvi_adpcm_decode ([0xff, 0x55] ++ []) (2 : Nat) { encoding := AE_L16 }
            (dvi_adpcm_init_state { valpred := 5, index := 7, dvi2bit := 1 }) = some r ∧
        r.state.dvi2bit = 0 ∧ in_bounds 0 r.state.valpred r.state.index ∧
        ∀ x ∈ r.out, -32768 ≤ x ∧ x ≤ 32767) := by
  have h := state_invariant (dvi_adpcm_init_state { valpred := 5, index := 7, dvi2bit := 1 })
    (by decide)
  exact ⟨by decide,
    (h.1 0 [32767, -32768, 32767, 0] [] 0 (by decide) (by decide)).2,
    (h.2.1 [0xff, 0x55] []).2⟩

theorem encode4_layout_witness :
    (1 : Int) ≠ 0 ∧
    ∃ r, dvi_adpcm_encode (0 :: ([16384, 0, 0] ++ [])) (2 * (3 : Nat)) { encoding := AE_L16 }
            { valpred := 0, index := 0, dvi2bit := 1 } 0 = some r ∧
      r.out.length = 2 ∧
      r.out[0]? = some (c_or
        (c_shl ((encode_codes 1 { valpred := 0, index := 0, step := step_of 1 0 }
          [16384, 0, 0]).getD 0 0) 4)
        ((encode_codes 1 { valpred := 0, index := 0, step := step_of 1 0 }
          [16384, 0, 0]).getD 1 0)) ∧
      r.out[1]? = some (c_shl ((encode_codes 1 { valpred := 0, index := 0, step := step_of 1 0 }
          [16384, 0, 0]).getD 2 0) 4) := by
  obtain ⟨r, hr, hlen, _, _, _, hpair, hlast⟩ :=
    encode4_layout 0 [16384, 0, 0] [] { valpred := 0, index := 0, dvi2bit := 1 } 0 (by decide)
  exact ⟨by decide, r, hr, hlen, hpair 0 (by decide), (hlast (by decide)).1⟩

theorem encode2_layout_witness :
    (0 : Int) = 0 ∧
    ∃ r, dvi_adpcm_encode (0 :: ([16384, 0, -300, 200, 7] ++ [])) (2 * (5 : Nat))
            { encoding := AE_L16 } { valpred := 0, index := 0, dvi2bit := 0 } 0 = some r ∧
      r.out.length = 1 ∧
      r.out_size = some 1 ∧
      r.out[0]? = some (c_or (c_or (c_or
        (c_shl ((encode_codes 0 { valpred := 0, index := 0, step := step_of 0 0 }
          [16384, 0, -300, 200, 7]).getD 0 0) 6)
        (c_shl ((encode_codes 0 { valpred := 0, index := 0, step := step_of 0 0 }
          [16384, 0, -300, 200, 7]).getD 1 0) 4))
        (c_shl ((encode_codes 0 { valpred := 0, index := 0, step := step_of 0 0 }
          [16384, 0, -300, 200, 7]).getD 2 0) 2))
        ((encode_codes 0 { valpred := 0, index := 0, step := step_of 0 0 }
          [16384, 0, -300, 200, 7]).getD 3 0)) := by
  obtain ⟨r, hr, hlen, hsize, _, _, _, hquad⟩ :=
    encode2_layout 0 [16384, 0, -300, 200, 7] [] { valpred := 0, index := 0, dvi2bit := 0 } 0 rfl
  exact ⟨rfl, r, hr, hlen, hsize, hquad 0 (by decide)⟩

theorem decode_counts_witness :
    in_bounds 0 (-32768) 10 ∧
    ∃ r, dvi_adpcm_decode ([0xff, 0x00, 0x80] ++ [0x12]) (3 : Nat) { encoding := AE_L16 }
            { valpred := -32768, index := 10, dvi2bit := 0 } = some r ∧
      r.ret = 0 ∧ r.unread = [0x12] ∧
      ((0 : Int) ≠ 0 → r.out.length = 2 * 3) ∧
      ((0 : Int) = 0 → r.out.length = 4 * 3) ∧
      r.out_size = some (2 * (r.out.length : Int)) ∧
      in_bounds r.state.dvi2bit r.state.valpred r.state.index :=
  ⟨by decide,
    decode_counts [0xff, 0x00, 0x80] [0x12] { valpred := -32768, index := 10, dvi2bit := 0 }
      (by decide)⟩

theorem unpack_then_pack_witness :
    (∀ b ∈ ([0x80, 0xff, 0x1b] : List Int), 0 ≤ b ∧ b ≤ 255) ∧
    ∃ codes u,
      unpack_codes 0 (4 * 3)
        (decode_start { valpred := 0, index := 0, dvi2bit := 0 } [0x80, 0xff, 0x1b]).unpack
        = some (codes, u) ∧
      u.in_sbuf = [] ∧
      codes.length = 4 * 3 ∧
      pack_codes 0 codes = [0x80, 0xff, 0x1b] :=
  ⟨by decide,
    unpack_then_pack { valpred := 0, index := 0, dvi2bit := 0 } [0x80, 0xff, 0x1b] (by decide)⟩

/-! ## The loop bodies over the exact arithmetic -/

theorem encode_quant4_with_id (val : Int) (p : predictor) :
    (encode_quant4_with id val p).2 = encode_quant4 val p := rfl

theorem encode_quant2_with_id (val : Int) (p : predictor) :
    (encode_quant2_with id val p).2 = encode_quant2 val p := rfl

theorem decode_dequant4_with_id (delta : Int) (p : predictor) :
    (decode_dequant4_with id delta p).2 = decode_dequant4 delta p := rfl

theorem decode_dequant2_with_id (delta : Int) (p : predictor) :
    (decode_dequant2_with id delta p).2 = decode_dequant2 delta p := rfl

theorem c_shr_eq_div (x : Int) (k : Nat) : c_shr x k = x / ((2 ^ k : Nat) : Int) := by
  unfold c_shr
  exact Int.shiftRight_eq_div_pow x k

theorem c_shr_shr_one (x : Int) : c_shr (c_shr x 1) 1 = c_shr x 2 := by
  simp only [c_shr_eq_div]
  norm_num
  omega

/-- The magnitude bits of the ladder are in `0..7` and `vpdiff` is the sum the
decoder forms from them. -/
theorem quant4_ladder_id (diff step : Int) :
    0 ≤ (quant4_ladder_with id diff step).1 ∧ (quant4_ladder_with id diff step).1 ≤ 7 ∧
    (quant4_ladder_with id diff step).2 =
      c_shr step 3
      + (if c_and (quant4_ladder_with id diff step).1 4 ≠ 0 then step else 0)
      + (if c_and (quant4_ladder_with id diff step).1 2 ≠ 0 then c_shr step 1 else 0)
      + (if c_and (quant4_ladder_with id diff step).1 1 ≠ 0 then c_shr step 2 else 0) := by
  simp only [quant4_ladder_with, id, c_shr_shr_one]
  split_ifs <;> simp_all +decide

theorem code4_split (m : Int) (h0 : 0 ≤ m) (h7 : m ≤ 7) :
    c_and (c_or m 8) 8 = 8 ∧ c_and (c_or m 8) 7 = m ∧
    c_and (c_or m 0) 8 = 0 ∧ c_and (c_or m 0) 7 = m := by
  interval_cases m <;> decide

/-- The DVI dequantiser undoes the DVI quantiser: on the code of an encoder
iteration the decoder iteration computes the same new locals. -/
theorem dequant4_of_quant4 (val : Int) (p : predictor) :
    decode_dequant4 (encode_quant4 val p).1 p = (encode_quant4 val p).2 := by
  rw [← encode_quant4_with_id]
  simp only [encode_quant4_with, id]
  by_cases hs : val - p.valpred < 0
  · simp only [hs, if_true, ne_eq, OfNat.ofNat_ne_zero, not_false_eq_true]
    generalize hl : quant4_ladder_with id (-(val - p.valpred)) p.step = lad
    have hlad := quant4_ladder_id (-(val - p.valpred)) p.step
    rw [hl] at hlad
    obtain ⟨h0, h7, hv⟩ := hlad
    have hc := code4_split lad.1 h0 h7
    simp only [decode_dequant4, hc.1, hc.2.1, ne_eq, OfNat.ofNat_ne_zero, not_false_eq_true,
      if_true]
    rw [hv]
    congr 2
    split_ifs <;> omega
  · simp only [hs, if_false, ne_eq, not_true_eq_false]
    generalize hl : quant4_ladder_with id (val - p.valpred) p.step = lad
    have hlad := quant4_ladder_id (val - p.valpred) p.step
    rw [hl] at hlad
    obtain ⟨h0, h7, hv⟩ := hlad
    have hc := code4_split lad.1 h0 h7
    simp only [decode_dequant4, hc.2.2.1, hc.2.2.2, ne_eq, not_true_eq_false, if_false]
    rw [hv]
    congr 2
    split_ifs <;> omega

/-- The G726-16 dequantiser undoes the G726-16 quantiser. -/
theorem dequant2_of_quant2 (val : Int) (p : predictor) :
    decode_dequant2 (encode_quant2 val p).1 p = (encode_quant2 val p).2 := by
  simp only [encode_quant2, decode_dequant2]
  split_ifs <;> simp_all +decide

theorem dequant_of_quant (d val : Int) (p : predictor) :
    decode_dequant d (encode_quant d val p).1 p = (encode_quant d val p).2 := by
  unfold decode_dequant encode_quant
  split_ifs
  · exact dequant4_of_quant4 val p
  · exact dequant2_of_quant2 val p

theorem decode_preds_of_encode (d : Int) (p : predictor) (vals : List Int) :
    decode_preds d p (encode_codes d p vals) = encode_preds d p vals := by
  induction vals generalizing p with
  | nil => rfl
  | cons v vs ih =>
    simp only [encode_codes, decode_preds, encode_preds, dequant_of_quant, ih]

theorem decode_final_of_encode (d : Int) (p : predictor) (vals : List Int) :
    decode_final d p (encode_codes d p vals) = encode_final d p vals := by
  induction vals generalizing p with
  | nil => rfl
  | cons v vs ih =>
    simp only [encode_codes, decode_final, encode_final, List.foldl_cons, dequant_of_quant]
    exact ih _

theorem encode_preds_valpred_range (d : Int) (p : predictor) (vals : List Int) :
    ∀ q ∈ encode_preds d p vals, -32768 ≤ q.valpred ∧ q.valpred ≤ 32767 := by
  induction vals generalizing p with
  | nil => simp [encode_preds]
  | cons v vs ih =>
    intro q hq
    simp only [encode_preds, List.mem_cons] at hq
    rcases hq with rfl | hq
    · exact encode_quant_valpred_range d v p
    · exact ih _ q hq

theorem decode_samples_of_encode (d : Int) (p : predictor) (vals : List Int) :
    decode_samples d AE_L16 p (encode_codes d p vals)
      = (encode_preds d p vals).map (fun q => q.valpred) := by
  unfold decode_samples
  rw [decode_preds_of_encode]
  apply List.map_congr_left
  intro q hq
  exact write_sample_l16 _ (encode_preds_valpred_range d p vals q hq).1
    (encode_preds_valpred_range d p vals q hq).2

theorem encode_preds_getElem (d : Int) (p : predictor) (vals : List Int) (j : Nat)
    (hj : j < vals.length) :
    (encode_preds d p vals)[j]? = some (encode_final d p (vals.take (j + 1))) := by
  induction vals generalizing p j with
  | nil => simp at hj
  | cons v vs ih =>
    cases j with
    | zero => simp [encode_preds, encode_final]
    | succ j =>
      simp only [List.length_cons] at hj
      simp only [encode_preds, List.getElem?_cons_succ, List.take_succ_cons, encode_final,
        List.foldl_cons]
      exact ih _ j (by omega)

/-- The two codes unpacked from a byte the encoder packed are the codes packed. -/
theorem byte_codes4_pack (a b : Int) (ha0 : 0 ≤ a) (ha : a ≤ 15) (hb0 : 0 ≤ b) (hb : b ≤ 15) :
    [c_and (c_shr (schar_load (schar_store (c_or (c_and b 0x0f) (c_and (c_shl a 4) 0xf0)))) 4) 0xf,
     c_and (schar_load (schar_store (c_or (c_and b 0x0f) (c_and (c_shl a 4) 0xf0)))) 0xf]
      = [a, b] := by
  interval_cases a <;> interval_cases b <;> decide

/-- The four codes unpacked from a byte the encoder packed are the codes packed. -/
theorem byte_codes2_pack (a b c e : Int) (ha0 : 0 ≤ a) (ha : a ≤ 3) (hb0 : 0 ≤ b) (hb : b ≤ 3)
    (hc0 : 0 ≤ c) (hc : c ≤ 3) (he0 : 0 ≤ e) (he : e ≤ 3) :
    byte_codes 0 (schar_store (c_or (c_and e 0x03)
      (c_or (c_or (c_and (c_shl a 6) 0xc0) (c_and (c_shl b 4) 0x30))
        (c_and (c_shl c 2) 0x0c)))) = [a, b, c, e] := by
  interval_cases a <;> interval_cases b <;> interval_cases c <;> interval_cases e <;> decide

theorem bytes_codes_bytes4 (d : Int) (hd : d ≠ 0) (cs : List Int)
    (hlen : cs.length % 2 = 0) (hr : ∀ c ∈ cs, 0 ≤ c ∧ c ≤ 15) :
    bytes_codes d (bytes4 cs) = cs := by
  induction cs using bytes4.induct with
  | case1 a b t ih =>
    have ha := hr a (by simp)
    have hb := hr b (by simp)
    simp only [bytes4, bytes_codes, byte_codes, if_pos hd]
    rw [byte_codes4_pack a b ha.1 ha.2 hb.1 hb.2,
      ih (by simp only [List.length_cons] at hlen; omega)
        (fun c hc => hr c (by simp [hc]))]
    rfl
  | case2 a => simp at hlen
  | case3 => rfl

theorem bytes_codes_bytes2 (cs : List Int)
    (hlen : cs.length % 4 = 0) (hr : ∀ c ∈ cs, 0 ≤ c ∧ c ≤ 3) :
    bytes_codes 0 (bytes2 cs) = cs := by
  induction cs using bytes2.induct with
  | case1 a b c e t ih =>
    have ha := hr a (by simp)
    have hb := hr b (by simp)
    have hc := hr c (by simp)
    have he := hr e (by simp)
    simp only [bytes2, bytes_codes]
    rw [byte_codes2_pack a b c e ha.1 ha.2 hb.1 hb.2 hc.1 hc.2 he.1 he.2,
      ih (by simp only [List.length_cons] at hlen; omega)
        (fun x hx => hr x (by simp [hx]))]
    rfl
  | case2 cs h =>
    match cs, h, hlen with
    | [], _, _ => rfl
    | [a], _, hlen => simp at hlen
    | [a, b], _, hlen => simp at hlen
    | [a, b, c], _, hlen => simp at hlen
    | a :: b :: c :: e :: t, h, _ => exact absurd rfl (h a b c e t)

theorem decode_iter_of_get (d e : Int) (u u1 : unpacker) (delta : Int) (p : predictor)
    (out : List Int) (h : decode_get d u = some (delta, u1)) :
    decode_iter d e { unpack := u, pred := p, out := out } =
      some { unpack := u1, pred := decode_dequant d delta p,
             out := out ++ [write_sample e (decode_dequant d delta p).valpred] } := by
  unfold decode_get at h
  unfold decode_iter decode_dequant
  split_ifs at h ⊢
  · simp only [h]
  · simp only [h]

/-! ## Constant inputs -/

theorem encode_codes_fixed (d v c : Int) (p : predictor) (h : encode_quant d v p = (c, p))
    (n : Nat) : encode_codes d p (List.replicate n v) = List.replicate n c := by
  induction n with
  | zero => rfl
  | succ n ih => simp only [List.replicate_succ, encode_codes, h, ih]

theorem encode_final_fixed (d v c : Int) (p : predictor) (h : encode_quant d v p = (c, p))
    (n : Nat) : encode_final d p (List.replicate n v) = p := by
  induction n with
  | zero => rfl
  | succ n ih =>
    simp only [List.replicate_succ, encode_final, List.foldl_cons, h]
    exact ih

theorem decode_preds_fixed (d c : Int) (p : predictor) (h : decode_dequant d c p = p)
    (n : Nat) : decode_preds d p (List.replicate n c) = List.replicate n p := by
  induction n with
  | zero => rfl
  | succ n ih => simp only [List.replicate_succ, decode_preds, h, ih]

theorem decode_final_fixed (d c : Int) (p : predictor) (h : decode_dequant d c p = p)
    (n : Nat) : decode_final d p (List.replicate n c) = p := by
  induction n with
  | zero => rfl
  | succ n ih =>
    simp only [List.replicate_succ, decode_final, List.foldl_cons, h]
    exact ih

theorem bytes4_zero (cs : List Int) (h : ∀ c ∈ cs, c = 0) :
    bytes4 cs = List.replicate ((cs.length + 1) / 2) 0 := by
  induction cs using bytes4.induct with
  | case1 a b t ih =>
    have ha : a = 0 := h a (by simp)
    have hb : b = 0 := h b (by simp)
    subst ha hb
    have hlen : ((0 :: 0 :: t : List Int).length + 1) / 2 = (t.length + 1) / 2 + 1 := by
      simp only [List.length_cons]; omega
    rw [hlen, List.replicate_succ, bytes4, ih (fun c hc => h c (by simp [hc]))]
    congr 1
  | case2 a =>
    have ha : a = 0 := h a (by simp)
    subst ha
    rfl
  | case3 => rfl

theorem bytes2_zero (cs : List Int) (h : ∀ c ∈ cs, c = 0) :
    bytes2 cs = List.replicate (cs.length / 4) 0 := by
  induction cs using bytes2.induct with
  | case1 a b c e t ih =>
    have ha : a = 0 := h a (by simp)
    have hb : b = 0 := h b (by simp)
    have hc : c = 0 := h c (by simp)
    have he : e = 0 := h e (by simp)
    subst ha hb hc he
    have hlen : (0 :: 0 :: 0 :: 0 :: t : List Int).length / 4 = t.length / 4 + 1 := by
      simp only [List.length_cons]; omega
    rw [hlen, List.replicate_succ, bytes2, ih (fun c hc => h c (by simp [hc]))]
    congr 1
  | case2 cs hne =>
    have hb : bytes2 cs = [] := by
      unfold bytes2
      split
      · exact absurd rfl (hne _ _ _ _ _)
      · rfl
    rw [hb]
    match cs, hne with
    | [], _ => simp
    | [a], _ => simp
    | [a, b], _ => simp
    | [a, b, c], _ => simp
    | a :: b :: c :: e :: t, hne => exact absurd rfl (hne a b c e t)

theorem bytes_codes_zero (d : Int) (m : Nat) :
    bytes_codes d (List.replicate m 0) = List.replicate (codes_per_byte d * m) 0 := by
  induction m with
  | zero => rfl
  | succ m ih =>
    rw [List.replicate_succ, bytes_codes, ih]
    by_cases hd : d = 0
    · subst hd
      have h4 : codes_per_byte 0 * (m + 1) = codes_per_byte 0 * m + 1 + 1 + 1 + 1 := by
        simp only [codes_per_byte]; simp; ring
      rw [h4]
      simp only [List.replicate_succ]
      rfl
    · have h2 : codes_per_byte d * (m + 1) = codes_per_byte d * m + 1 + 1 := by
        simp only [codes_per_byte, if_pos hd]; ring
      rw [h2]
      simp only [List.replicate_succ, byte_codes, if_pos hd]
      rfl

theorem mem_replicate_eq (n : Nat) (v c : Int) (h : c ∈ List.replicate n v) : c = v :=
  (List.mem_replicate.mp h).2

theorem decode_samples_fixed (d e c : Int) (p : predictor) (h : decode_dequant d c p = p)
    (n : Nat) :
    decode_samples d e p (List.replicate n c) = List.replicate n (write_sample e p.valpred) := by
  unfold decode_samples
  rw [decode_preds_fixed d c p h, List.map_replicate]

/-- C12.  4-bit silence.  In 4-bit mode, from the initial predictor 0 and step
index 0, on a zero-filled buffer: for every `N` the encoder writes `ceil(N/2)`
bytes that are all `0x00` and leaves predictor 0 and step index 0, and the
decoder on these bytes from the initial state emits only zero samples and
leaves predictor 0 and step index 0.  For `N = 8` the bytes are
`[0x00, 0x00, 0x00, 0x00]` and the decoded samples are eight zeros. -/
theorem silence4 (N extra : Nat) (d flag : Int) (hd : d ≠ 0) :
    (∃ re rd,
      dvi_adpcm_encode (0 :: (List.replicate N 0 ++ List.replicate extra 0))
          (2 * (N : Int)) { encoding := AE_L16 }
          { valpred := 0, index := 0, dvi2bit := d } flag = some re ∧
      re.ret = 0 ∧ re.out = List.replicate ((N + 1) / 2) 0 ∧
      re.state = { valpred := 0, index := 0, dvi2bit := d } ∧
      dvi_adpcm_decode re.out (re.out.length : Int) { encoding := AE_L16 }
          { valpred := 0, index := 0, dvi2bit := d } = some rd ∧
      rd.ret = 0 ∧ rd.out = List.replicate (2 * ((N + 1) / 2)) 0 ∧
      rd.state = { valpred := 0, index := 0, dvi2bit := d }) ∧
    (dvi_adpcm_encode [0, 0, 0, 0, 0, 0, 0, 0, 0] 16 { encoding := AE_L16 }
          { valpred := 0, index := 0, dvi2bit := 1 } 0).map (fun r => (r.out, r.state))
      = some ([0x00, 0x00, 0x00, 0x00], { valpred := 0, index := 0, dvi2bit := 1 }) ∧
    (dvi_adpcm_decode [0x00, 0x00, 0x00, 0x00] 4 { encoding := AE_L16 }
          { valpred := 0, index := 0, dvi2bit := 1 }).map (fun r => r.out)
      = some [0, 0, 0, 0, 0, 0, 0, 0] := by
  refine ⟨?_, by decide, by decide⟩
  have hq : encode_quant d 0 { valpred := 0, index := 0, step := step_of d 0 }
      = (0, { valpred := 0, index := 0, step := step_of d 0 }) := by
    simp only [encode_quant, step_of, if_pos hd]
    decide
  have hdq : decode_dequant d 0 { valpred := 0, index := 0, step := step_of d 0 }
      = { valpred := 0, index := 0, step := step_of d 0 } := by
    simp only [decode_dequant, step_of, if_pos hd]
    decide
  have henc := dvi_adpcm_encode_l16 0 (List.replicate N 0) (List.replicate extra 0)
    { valpred := 0, index := 0, dvi2bit := d } flag
  simp only [List.length_replicate, encode_codes_fixed d 0 0 _ hq, encode_final_fixed d 0 0 _ hq,
    pack_codes4 d hd] at henc
  rw [bytes4_zero _ (fun c hc => mem_replicate_eq _ _ _ hc), List.length_replicate] at henc
  have hdec := dvi_adpcm_decode_run (List.replicate ((N + 1) / 2) 0) []
    { encoding := AE_L16 } { valpred := 0, index := 0, dvi2bit := d } (Or.inr rfl)
  simp only [List.append_nil, bytes_codes_zero, decode_samples_fixed d AE_L16 0 _ hdq,
    decode_final_fixed d 0 _ hdq, codes_per_byte, if_pos hd] at hdec
  refine ⟨_, _, henc, rfl, rfl, rfl, hdec, rfl, ?_, rfl⟩
  simp only [write_sample_l16 0 (by decide) (by decide)]

theorem silence4_witness :
    (1 : Int) ≠ 0 ∧
    ∃ re rd,
      dvi_adpcm_encode (0 :: (List.replicate 8 0 ++ List.replicate 1015 0))
          (2 * ((8 : Nat) : Int)) { encoding := AE_L16 }
          { valpred := 0, index := 0, dvi2bit := 1 } 0 = some re ∧
      re.ret = 0 ∧ re.out = List.replicate ((8 + 1) / 2) 0 ∧
      re.state = { valpred := 0, index := 0, dvi2bit := 1 } ∧
      dvi_adpcm_decode re.out (re.out.length : Int) { encoding := AE_L16 }
          { valpred := 0, index := 0, dvi2bit := 1 } = some rd ∧
      rd.ret = 0 ∧ rd.out = List.replicate (2 * ((8 + 1) / 2)) 0 ∧
      rd.state = { valpred := 0, index := 0, dvi2bit := 1 } :=
  ⟨by decide, (silence4 8 1015 1 0 (by decide)).1⟩

theorem replicate_four (m : Nat) (v : Int) :
    List.replicate (4 * (m + 1)) v = v :: v :: v :: v :: List.replicate (4 * m) v := by
  have h : 4 * (m + 1) = 4 * m + 1 + 1 + 1 + 1 := by ring
  rw [h]
  simp only [List.replicate_succ]

theorem zero2_codes (m : Nat) :
    encode_codes 0 { valpred := 0, index := 0, step := 256 } (List.replicate (4 * m) 0)
      = repeat_block [0, 2, 0, 2] m ∧
    encode_final 0 { valpred := 0, index := 0, step := 256 } (List.replicate (4 * m) 0)
      = { valpred := 0, index := 0, step := 256 } := by
  have h1 : encode_quant 0 0 { valpred := 0, index := 0, step := 256 }
      = (0, { valpred := 128, index := 0, step := 256 }) := by decide
  have h2 : encode_quant 0 0 { valpred := 128, index := 0, step := 256 }
      = (2, { valpred := 0, index := 0, step := 256 }) := by decide
  induction m with
  | zero => exact ⟨rfl, rfl⟩
  | succ m ih =>
    rw [replicate_four]
    constructor
    · simp only [encode_codes, h1, h2, ih.1, repeat_block]
      rfl
    · simp only [encode_final, List.foldl_cons, h1, h2]
      exact ih.2

theorem zero2_bytes (m : Nat) :
    bytes2 (repeat_block [0, 2, 0, 2] m) = List.replicate m 0x22 := by
  induction m with
  | zero => rfl
  | succ m ih =>
    simp only [repeat_block, List.cons_append, List.nil_append, bytes2, ih, List.replicate_succ]
    congr 1

theorem zero2_unpack (m : Nat) :
    bytes_codes 0 (List.replicate m 0x22) = repeat_block [0, 2, 0, 2] m := by
  induction m with
  | zero => rfl
  | succ m ih =>
    simp only [List.replicate_succ, bytes_codes, ih, repeat_block]
    congr 1

theorem zero2_decode (m : Nat) :
    decode_samples 0 AE_L16 { valpred := 0, index := 0, step := 256 }
        (repeat_block [0, 2, 0, 2] m) = repeat_block [128, 0, 128, 0] m ∧
    decode_final 0 { valpred := 0, index := 0, step := 256 } (repeat_block [0, 2, 0, 2] m)
      = { valpred := 0, index := 0, step := 256 } := by
  have h1 : decode_dequant 0 0 { valpred := 0, index := 0, step := 256 }
      = { valpred := 128, index := 0, step := 256 } := by decide
  have h2 : decode_dequant 0 2 { valpred := 128, index := 0, step := 256 }
      = { valpred := 0, index := 0, step := 256 } := by decide
  have w1 : write_sample AE_L16 128 = 128 := by decide
  have w2 : write_sample AE_L16 0 = 0 := by decide
  induction m with
  | zero => exact ⟨rfl, rfl⟩
  | succ m ih =>
    constructor
    · have := ih.1
      simp only [decode_samples] at this ⊢
      simp only [repeat_block, List.cons_append, List.nil_append, decode_preds, h1, h2,
        List.map_cons, w1, w2]
      exact congrArg (fun t => 128 :: 0 :: 128 :: 0 :: t) this
    · simp only [repeat_block, List.cons_append, List.nil_append, decode_final, List.foldl_cons,
        h1, h2]
      exact ih.2

/-- C13 as stated fails.  In 2-bit mode the encoder's bytes for eight zero samples
from the initial state are `[0x22, 0x22]`, not `[0x00, 0x00]`; the decoder emits
`128, 0, 128, 0, ...` for them, and `128, 256, ..., 1024` for the bytes
`[0x00, 0x00]`: in neither case eight zeros. -/
theorem two_bit_zeros_not_zero_bytes :
    (dvi_adpcm_encode [0, 0, 0, 0, 0, 0, 0, 0, 0] 16 { encoding := AE_L16 }
        { valpred := 0, index := 0, dvi2bit := 0 } 0).map (fun r => r.out)
      ≠ some [0x00, 0x00] ∧
    (dvi_adpcm_decode [0x22, 0x22] 2 { encoding := AE_L16 }
        { valpred := 0, index := 0, dvi2bit := 0 }).map (fun r => r.out)
      ≠ some [0, 0, 0, 0, 0, 0, 0, 0] ∧
    (dvi_adpcm_decode [0x00, 0x00] 2 { encoding := AE_L16 }
        { valpred := 0, index := 0, dvi2bit := 0 }).map (fun r => r.out)
      ≠ some [0, 0, 0, 0, 0, 0, 0, 0] := by
  decide

/-- C13, amended.  2-bit silence.  In 2-bit mode, from the initial predictor 0 and
step index 0, on a zero-filled buffer: for every `N = 4 m` the encoder writes
`m` bytes that are all `0x22` (the codes `0, 2, 0, 2`: the quantiser has no zero
level, the predictor goes to 128 and back to 0) and leaves predictor 0 and step
index 0; the decoder on these bytes from the initial state emits the samples
`128, 0, 128, 0, ...` and leaves predictor 0 and step index 0.  For `N = 8` the
bytes are `[0x22, 0x22]` and the decoded samples `[128, 0, 128, 0, 128, 0, 128, 0]`. -/
theorem silence2 (m extra : Nat) (flag : Int) :
    (∃ re rd,
      dvi_adpcm_encode (0 :: (List.replicate (4 * m) 0 ++ List.replicate extra 0))
          (2 * ((4 * m : Nat) : Int)) { encoding := AE_L16 }
          { valpred := 0, index := 0, dvi2bit := 0 } flag = some re ∧
      re.ret = 0 ∧ re.out = List.replicate m 0x22 ∧
      re.state = { valpred := 0, index := 0, dvi2bit := 0 } ∧
      dvi_adpcm_decode re.out (re.out.length : Int) { encoding := AE_L16 }
          { valpred := 0, index := 0, dvi2bit := 0 } = some rd ∧
      rd.ret = 0 ∧ rd.out = repeat_block [128, 0, 128, 0] m ∧
      rd.state = { valpred := 0, index := 0, dvi2bit := 0 }) ∧
    (dvi_adpcm_encode [0, 0, 0, 0, 0, 0, 0, 0, 0] 16 { encoding := AE_L16 }
          { valpred := 0, index := 0, dvi2bit := 0 } 0).map (fun r => (r.out, r.state))
      = some ([0x22, 0x22], { valpred := 0, index := 0, dvi2bit := 0 }) ∧
    (dvi_adpcm_decode [0x22, 0x22] 2 { encoding := AE_L16 }
          { valpred := 0, index := 0, dvi2bit := 0 }).map (fun r => r.out)
      = some [128, 0, 128, 0, 128, 0, 128, 0] := by
  refine ⟨?_, by decide, by decide⟩
  have hstep : step_of 0 0 = 256 := by decide
  have henc := dvi_adpcm_encode_l16 0 (List.replicate (4 * m) 0) (List.replicate extra 0)
    { valpred := 0, index := 0, dvi2bit := 0 } flag
  simp only [List.length_replicate, hstep, (zero2_codes m).1, (zero2_codes m).2,
    pack_codes2, zero2_bytes] at henc
  have hdec := dvi_adpcm_decode_run (List.replicate m 0x22) []
    { encoding := AE_L16 } { valpred := 0, index := 0, dvi2bit := 0 } (Or.inr rfl)
  simp only [List.append_nil, hstep, zero2_unpack, (zero2_decode m).1,
    (zero2_decode m).2] at hdec
  rw [List.length_replicate] at hdec
  exact ⟨_, _, henc, rfl, rfl, rfl, by rw [List.length_replicate]; exact hdec, rfl, rfl, rfl⟩

/-- C14 (fails on the code).  On a sustained input of `+32767` from the initial
state the encoder's step index never leaves 0, in either mode and for every
number `N` of samples: the encoder takes its predictor from the first element
of the input (`32767`), every difference is 0, every code is 0.  The 4-bit
decoder, started from the initial state, emits only zeros for these bytes. -/
theorem full_scale_never_adapts (N extra : Nat) (flag : Int) :
    dvi_adpcm_encode (32767 :: (List.replicate N 32767 ++ List.replicate extra 32767))
        (2 * (N : Int)) { encoding := AE_L16 }
        { valpred := 0, index := 0, dvi2bit := 1 } flag
      = some { ret := 0, out := List.replicate ((N + 1) / 2) 0,
               out_size := some (Int.tdiv (N : Int) 2),
               state := { valpred := 32767, index := 0, dvi2bit := 1 } } ∧
    dvi_adpcm_encode (32767 :: (List.replicate N 32767 ++ List.replicate extra 32767))
        (2 * (N : Int)) { encoding := AE_L16 }
        { valpred := 0, index := 0, dvi2bit := 0 } flag
      = some { ret := 0, out := List.replicate (N / 4) 0,
               out_size := some (Int.tdiv (N : Int) 4),
               state := { valpred := 32767, index := 0, dvi2bit := 0 } } ∧
    (dvi_adpcm_decode (List.replicate ((N + 1) / 2) 0) (((N + 1) / 2 : Nat) : Int)
        { encoding := AE_L16 } { valpred := 0, index := 0, dvi2bit := 1 }).map
          (fun r => (r.out, r.state))
      = some (List.replicate (2 * ((N + 1) / 2)) 0,
              { valpred := 0, index := 0, dvi2bit := 1 }) := by
  have hq4 : encode_quant 1 32767 { valpred := 32767, index := 0, step := step_of 1 0 }
      = (0, { valpred := 32767, index := 0, step := step_of 1 0 }) := by decide
  have hq2 : encode_quant 0 32767 { valpred := 32767, index := 0, step := step_of 0 0 }
      = (0, { valpred := 32767, index := 0, step := step_of 0 0 }) := by decide
  have hdq : decode_dequant 1 0 { valpred := 0, index := 0, step := step_of 1 0 }
      = { valpred := 0, index := 0, step := step_of 1 0 } := by decide
  refine ⟨?_, ?_, ?_⟩
  · have henc := dvi_adpcm_encode_l16 32767 (List.replicate N 32767)
      (List.replicate extra 32767) { valpred := 0, index := 0, dvi2bit := 1 } flag
    simp only [List.length_replicate, encode_codes_fixed 1 32767 0 _ hq4,
      encode_final_fixed 1 32767 0 _ hq4, pack_codes4 1 (by decide)] at henc
    rw [bytes4_zero _ (fun c hc => mem_replicate_eq _ _ _ hc), List.length_replicate] at henc
    rw [henc]
    rfl
  · have henc := dvi_adpcm_encode_l16 32767 (List.replicate N 32767)
      (List.replicate extra 32767) { valpred := 0, index := 0, dvi2bit := 0 } flag
    simp only [List.length_replicate, encode_codes_fixed 0 32767 0 _ hq2,
      encode_final_fixed 0 32767 0 _ hq2, pack_codes2] at henc
    rw [bytes2_zero _ (fun c hc => mem_replicate_eq _ _ _ hc), List.length_replicate] at henc
    rw [henc]
    rfl
  · have hdec := dvi_adpcm_decode_run (List.replicate ((N + 1) / 2) 0) []
      { encoding := AE_L16 } { valpred := 0, index := 0, dvi2bit := 1 } (Or.inr rfl)
    simp only [List.append_nil, bytes_codes_zero, decode_samples_fixed 1 AE_L16 0 _ hdq,
      decode_final_fixed 1 0 _ hdq, List.length_replicate] at hdec
    rw [hdec]
    simp only [Option.map_some', write_sample_l16 0 (by decide) (by decide)]
    rfl

/-- C15 as stated fails.  From predictor 0 and step index 0 the code 7 moves the
predictor to 11, not 12, and the samples decoded from `[0x77, 0x77]` are not
`12, 28, 52, 88`. -/
theorem code7_gives_11_not_12 :
    (decode_dequant 1 7 { valpred := 0, index := 0, step := step_of 1 0 }).valpred ≠ 12 ∧
    (dvi_adpcm_decode [0x77, 0x77] 2 { encoding := AE_L16 }
        { valpred := 0, index := 0, dvi2bit := 1 }).map (fun r => r.out)
      ≠ some [12, 28, 52, 88] := by
  decide

/-- C15, amended.  4-bit reference vector.  In 4-bit mode, from predictor 0 and step
index 0 (step 7), the code 7 (sign 0, magnitude 7) moves the predictor to 11
(`vpdiff = (7 >> 3) + 7 + (7 >> 1) + (7 >> 2) = 0 + 7 + 3 + 1`) and the step
index to 8 (step 16).  This is the state of the encoder after its first loop
iteration on the input `[0, 16384, 0, 0, 0, 0, 0, 0]` from the initial state,
which has then read the elements 0 and 1 and coded element 1 as 7; and 11 is the
first sample the decoder emits for the bytes `[0x77, 0x77]` from the initial
state, the four emitted samples being 11, 41, 104, 240. -/
theorem reference_vector :
    step_of 1 0 = 7 ∧
    decode_dequant 1 7 { valpred := 0, index := 0, step := 7 }
      = { valpred := 11, index := 8, step := 16 } ∧
    encode_quant 1 16384 { valpred := 0, index := 0, step := 7 }
      = (7, { valpred := 11, index := 8, step := 16 }) ∧
    c_and 7 8 = 0 ∧ c_and 7 7 = 7 ∧
    (encode_loop 1 AE_L16 1
        (encode_start { valpred := 0, index := 0, dvi2bit := 1 } 0
          [16384, 0, 0, 0, 0, 0, 0])).map (fun l => (l.src, l.pred, l.pack.outputbuffer))
      = some ([0, 0, 0, 0, 0, 0], { valpred := 11, index := 8, step := 16 }, 0x70) ∧
    dvi_adpcm_decode [0x77, 0x77] 2 { encoding := AE_L16 }
        { valpred := 0, index := 0, dvi2bit := 1 }
      = some { ret := 0, out := [11, 41, 104, 240], out_size := some 8, unread := [],
               state := { valpred := 240, index := 32, dvi2bit := 1 } } := by
  decide

/-! ## The claims, continued -/

/-- C16.  Per-sample symmetry.  For either mode, every in-bounds predictor `p` and
step index `i` (with `step` the table entry at `i`) and every 16-bit sample `v`:
if the encoder's loop iteration on `v` yields the code `c` and the new locals
`q`, then the decoder's Steps 2 to 6 on `c` from the same locals yield `q`, and
the sample written for linear 16-bit output is `q.valpred`.  In terms of the
loop bodies: the encoder iteration that reads `v` leaves `q` and packs `c`, and
a decoder iteration whose Step 1 extracts `c` leaves `q` and appends
`q.valpred` to its output. -/
theorem per_sample_symmetry (d p i v : Int) (hb : in_bounds d p i)
    (hv : -32768 ≤ v ∧ v ≤ 32767) :
    decode_dequant d (encode_quant d v { valpred := p, index := i, step := step_of d i }).1
        { valpred := p, index := i, step := step_of d i }
      = (encode_quant d v { valpred := p, index := i, step := step_of d i }).2 ∧
    write_sample AE_L16
        (encode_quant d v { valpred := p, index := i, step := step_of d i }).2.valpred
      = (encode_quant d v { valpred := p, index := i, step := step_of d i }).2.valpred ∧
    in_bounds d (encode_quant d v { valpred := p, index := i, step := step_of d i }).2.valpred
      (encode_quant d v { valpred := p, index := i, step := step_of d i }).2.index ∧
    (∀ (src : List Int) (k : packer),
      encode_iter d AE_L16
          { src := v :: src, pred := { valpred := p, index := i, step := step_of d i },
            pack := k }
        = some { src := src,
                 pred := (encode_quant d v { valpred := p, index := i, step := step_of d i }).2,
                 pack := encode_put d
                   (encode_quant d v { valpred := p, index := i, step := step_of d i }).1 k }) ∧
    (∀ (u u1 : unpacker) (out : List Int),
      decode_get d u
          = some ((encode_quant d v { valpred := p, index := i, step := step_of d i }).1, u1) →
      decode_iter d AE_L16
          { unpack := u, pred := { valpred := p, index := i, step := step_of d i }, out := out }
        = some { unpack := u1,
                 pred := (encode_quant d v { valpred := p, index := i, step := step_of d i }).2,
                 out := out ++
                   [(encode_quant d v
                      { valpred := p, index := i, step := step_of d i }).2.valpred] }) := by
  have hsym := dequant_of_quant d v { valpred := p, index := i, step := step_of d i }
  have hr := encode_quant_valpred_range d v { valpred := p, index := i, step := step_of d i }
  have hi := encode_quant_index_range d v { valpred := p, index := i, step := step_of d i }
  have hw := write_sample_l16 _ hr.1 hr.2
  obtain ⟨_, _, _, _⟩ := hb
  obtain ⟨_, _⟩ := hv
  refine ⟨hsym, hw, ⟨hr.1, hr.2, hi.1, hi.2⟩, ?_, ?_⟩
  · intro src k
    rw [encode_iter_cons, sample_of_l16]
  · intro u u1 out hget
    rw [decode_iter_of_get d AE_L16 u u1 _ _ out hget, hsym, hw]

theorem per_sample_symmetry_witness :
    in_bounds 1 100 20 ∧ ((-32768 : Int) ≤ -7000 ∧ (-7000 : Int) ≤ 32767) ∧
    decode_dequant 1 (encode_quant 1 (-7000) { valpred := 100, index := 20, step := step_of 1 20 }).1
        { valpred := 100, index := 20, step := step_of 1 20 }
      = (encode_quant 1 (-7000) { valpred := 100, index := 20, step := step_of 1 20 }).2 :=
  ⟨by decide, by decide, (per_sample_symmetry 1 100 20 (-7000) (by decide) (by decide)).1⟩

/-- C17.  Round trip with the decoder seeded by the first element.  The buffer
holds `x0` (a 16-bit value), then the `N` elements `vals` the loop runs over
(`N` even in 4-bit mode, a multiple of 4 in 2-bit mode), and the step index of
the state is inside the table.  The bytes the encoder writes, decoded from the
state with predictor `x0` and the same step index and mode, give exactly `N`
samples; sample `j` is the encoder's predictor after `j + 1` iterations of its
loop; and the state the decoder leaves is the state the encoder leaves. -/
theorem roundtrip_seeded (x0 : Int) (vals rest : List Int) (state : dvi_adpcm_state)
    (flag : Int) (hx : -32768 ≤ x0 ∧ x0 ≤ 32767)
    (hi : 0 ≤ state.index ∧ state.index ≤ max_index state.dvi2bit)
    (hN : vals.length % codes_per_byte state.dvi2bit = 0) :
    ∃ re rd,
      dvi_adpcm_encode (x0 :: (vals ++ rest)) (2 * (vals.length : Int))
          { encoding := AE_L16 } state flag = some re ∧
      dvi_adpcm_decode re.out (re.out.length : Int) { encoding := AE_L16 }
          { valpred := x0, index := state.index, dvi2bit := state.dvi2bit } = some rd ∧
      re.ret = 0 ∧ rd.ret = 0 ∧ rd.unread = [] ∧
      rd.out.length = vals.length ∧
      (∀ j, j < vals.length →
        ∃ l, encode_loop state.dvi2bit AE_L16 (j + 1) (encode_start state x0 (vals ++ rest))
              = some l ∧
          rd.out[j]? = some l.pred.valpred) ∧
      rd.state = re.state ∧
      in_bounds rd.state.dvi2bit rd.state.valpred rd.state.index := by
  rw [dvi_adpcm_encode_l16]
  generalize hp0 : predictor.mk x0 state.index (step_of state.dvi2bit state.index) = p0
  have hclen := encode_codes_length state.dvi2bit p0 vals
  have hunpack : bytes_codes state.dvi2bit
      (pack_codes state.dvi2bit (encode_codes state.dvi2bit p0 vals))
      = encode_codes state.dvi2bit p0 vals := by
    by_cases hd : state.dvi2bit = 0
    · rw [hd] at hN hclen ⊢
      rw [pack_codes2]
      exact bytes_codes_bytes2 _ (by rw [hclen]; simpa [codes_per_byte] using hN)
        (encode_codes2_range p0 vals)
    · rw [pack_codes4 _ hd]
      exact bytes_codes_bytes4 _ hd _
        (by rw [hclen]; simpa [codes_per_byte, hd] using hN)
        (encode_codes4_range _ hd p0 vals)
  have hdec := dvi_adpcm_decode_run
    (pack_codes state.dvi2bit (encode_codes state.dvi2bit p0 vals)) []
    { encoding := AE_L16 }
    { valpred := x0, index := state.index, dvi2bit := state.dvi2bit } (Or.inr rfl)
  rw [List.append_nil] at hdec
  simp only [hp0, hunpack, decode_samples_of_encode, decode_final_of_encode] at hdec
  refine ⟨_, _, rfl, hdec, rfl, rfl, rfl, ?_, ?_, rfl, ?_⟩
  · simp only [List.length_map, encode_preds_length]
  · intro j hj
    have hrun := encode_loop_run state.dvi2bit AE_L16 (vals.take (j + 1))
      (vals.drop (j + 1) ++ rest) (encode_start state x0 (vals ++ rest)).pred
      (encode_start state x0 (vals ++ rest)).pack
    rw [← List.append_assoc, List.take_append_drop, List.length_take,
      Nat.min_eq_left (by omega), map_sample_of_l16] at hrun
    refine ⟨_, hrun, ?_⟩
    simp only [List.getElem?_map, encode_preds_getElem _ _ _ j hj, Option.map_some']
    rw [← hp0]
    rfl
  · rw [← hp0]
    exact encode_final_in_bounds _ _ _ ⟨hx.1, hx.2, hi.1, hi.2⟩

theorem roundtrip_seeded_witness :
    ((-32768 : Int) ≤ 1000 ∧ (1000 : Int) ≤ 32767) ∧
    ((0 : Int) ≤ 3 ∧ (3 : Int) ≤ max_index 1) ∧
    ([1000, 0, -20000, 32767].length % codes_per_byte 1 = 0) ∧
    ∃ re rd,
      dvi_adpcm_encode (1000 :: ([1000, 0, -20000, 32767] ++ [5]))
          (2 * (([1000, 0, -20000, 32767] : List Int).length : Int))
          { encoding := AE_L16 } { valpred := 77, index := 3, dvi2bit := 1 } 0 = some re ∧
      dvi_adpcm_decode re.out (re.out.length : Int) { encoding := AE_L16 }
          { valpred := 1000, index := 3, dvi2bit := 1 } = some rd ∧
      rd.out.length = 4 ∧ rd.state = re.state := by
  obtain ⟨re, rd, h1, h2, _, _, _, h3, _, h4, _⟩ :=
    roundtrip_seeded 1000 [1000, 0, -20000, 32767] [5]
      { valpred := 77, index := 3, dvi2bit := 1 } 0 (by decide) (by decide) (by decide)
  exact ⟨by decide, by decide, by decide, re, rd, h1, h2, h3, h4⟩

/-! ## Failing calls and the incoming predictor -/

theorem encode_valid_ret (in_buf : List Int) (in_size : Int) (header : audio_descr_t)
    (state : dvi_adpcm_state) (flag : Int) (r : enc_result)
    (hv : header.encoding = AE_L16 ∨ header.encoding = AE_PCMU)
    (h : dvi_adpcm_encode in_buf in_size header state flag = some r) :
    r.ret = 0 ∧ r.out_size ≠ none := by
  unfold dvi_adpcm_encode at h
  rw [if_pos hv] at h
  simp only at h
  split at h
  · cases h
  · split at h
    · cases h
    · simp only [Option.some.injEq] at h
      rw [← h]
      exact ⟨rfl, by simp⟩

theorem decode_valid_ret (in_buf : List Int) (in_size : Int) (header : audio_descr_t)
    (state : dvi_adpcm_state) (r : dec_result)
    (hv : header.encoding = AE_PCMU ∨ header.encoding = AE_L16)
    (h : dvi_adpcm_decode in_buf in_size header state = some r) :
    r.ret = 0 ∧ r.out_size ≠ none := by
  unfold dvi_adpcm_decode at h
  simp only [if_pos hv] at h
  split at h
  · cases h
  · simp only [Option.some.injEq] at h
    rw [← h]
    exact ⟨rfl, by simp⟩

/-- C11.  A failing call leaves the state untouched.  When the encoding of the
header is neither `AE_L16` nor `AE_PCMU`, the encoder and the decoder return
`-1`, write nothing, do not set `*out_size` and leave the state as it was.  With
either of the two encodings every call returns 0 (and sets `*out_size`); such
calls exist for every input that fits its buffer. -/
theorem failing_call_keeps_state (header : audio_descr_t) (state : dvi_adpcm_state) :
    (¬ (header.encoding = AE_L16 ∨ header.encoding = AE_PCMU) →
      (∀ (in_buf : List Int) (in_size flag : Int),
        dvi_adpcm_encode in_buf in_size header state flag
          = some { ret := -1, out := [], out_size := none, state := state }) ∧
      (∀ (in_buf : List Int) (in_size : Int),
        dvi_adpcm_decode in_buf in_size header state
          = some { ret := -1, out := [], out_size := none, unread := in_buf,
                   state := state })) ∧
    ((header.encoding = AE_L16 ∨ header.encoding = AE_PCMU) →
      (∀ (in_buf : List Int) (in_size flag : Int) (r : enc_result),
        dvi_adpcm_encode in_buf in_size header state flag = some r →
          r.ret = 0 ∧ r.out_size ≠ none) ∧
      (∀ (in_buf : List Int) (in_size : Int) (r : dec_result),
        dvi_adpcm_decode in_buf in_size header state = some r →
          r.ret = 0 ∧ r.out_size ≠ none) ∧
      (∀ (x0 : Int) (vals rest : List Int) (flag : Int),
        ∃ r, dvi_adpcm_encode (x0 :: (vals ++ rest))
              (if header.encoding = AE_L16 then 2 * (vals.length : Int) else (vals.length : Int))
              header state flag = some r ∧ r.ret = 0) ∧
      (∀ (bytes rest : List Int),
        ∃ r, dvi_adpcm_decode (bytes ++ rest) (bytes.length : Int) header state = some r ∧
          r.ret = 0)) := by
  constructor
  · intro hbad
    constructor
    · intro in_buf in_size flag
      unfold dvi_adpcm_encode
      rw [if_neg hbad]
    · intro in_buf in_size
      unfold dvi_adpcm_decode
      have hbad2 : ¬ (header.encoding = AE_PCMU ∨ header.encoding = AE_L16) :=
        fun h => hbad h.symm
      simp only [if_neg hbad2]
  · intro hv
    refine ⟨?_, ?_, ?_, ?_⟩
    · intro in_buf in_size flag r h
      exact encode_valid_ret in_buf in_size header state flag r hv h
    · intro in_buf in_size r h
      exact decode_valid_ret in_buf in_size header state r hv.symm h
    · intro x0 vals rest flag
      have hn : (if header.encoding = AE_L16
          then Int.tdiv (if header.encoding = AE_L16 then 2 * (vals.length : Int)
            else (vals.length : Int)) 2
          else (if header.encoding = AE_L16 then 2 * (vals.length : Int)
            else (vals.length : Int))) = (vals.length : Int) := by
        split_ifs
        · exact Int.mul_tdiv_cancel_left _ (by decide)
        · rfl
      rw [dvi_adpcm_encode_run x0 vals rest _ header state flag hv hn]
      exact ⟨_, rfl, rfl⟩
    · intro bytes rest
      rw [dvi_adpcm_decode_run bytes rest header state hv.symm]
      exact ⟨_, rfl, rfl⟩

/-- C18 as stated fails.  On a call that fails (here: header encoding 0) the state
is left as it was, so two states that differ only in `valpred` end with
different `valpred`. -/
theorem encode_failing_keeps_incoming_predictor :
    (dvi_adpcm_encode [0, 0] 2 { encoding := 0 }
        { valpred := 0, index := 0, dvi2bit := 1 } 0).map (fun r => r.state.valpred)
      ≠ (dvi_adpcm_encode [0, 0] 2 { encoding := 0 }
        { valpred := 5, index := 0, dvi2bit := 1 } 0).map (fun r => r.state.valpred) := by
  decide

/-- C18, amended.  The encoder does not use the incoming predictor.  For every input
and two states that differ only in `valpred`: the return value, the bytes
written, `*out_size` and the final `index` and `dvi2bit` are the same; and when
the header encoding is `AE_L16` or `AE_PCMU` (the call does not fail) the whole
result, the final `valpred` included, is the same. -/
theorem encode_ignores_incoming_predictor (in_buf : List Int) (in_size : Int)
    (header : audio_descr_t) (v1 v2 index dvi2bit flag : Int) :
    (dvi_adpcm_encode in_buf in_size header
        { valpred := v1, index := index, dvi2bit := dvi2bit } flag).map
          (fun r => (r.ret, r.out, r.out_size, r.state.index, r.state.dvi2bit))
      = (dvi_adpcm_encode in_buf in_size header
        { valpred := v2, index := index, dvi2bit := dvi2bit } flag).map
          (fun r => (r.ret, r.out, r.out_size, r.state.index, r.state.dvi2bit)) ∧
    ((header.encoding = AE_L16 ∨ header.encoding = AE_PCMU) →
      dvi_adpcm_encode in_buf in_size header
          { valpred := v1, index := index, dvi2bit := dvi2bit } flag
        = dvi_adpcm_encode in_buf in_size header
          { valpred := v2, index := index, dvi2bit := dvi2bit } flag) := by
  have hvalid : (header.encoding = AE_L16 ∨ header.encoding = AE_PCMU) →
      dvi_adpcm_encode in_buf in_size header
          { valpred := v1, index := index, dvi2bit := dvi2bit } flag
        = dvi_adpcm_encode in_buf in_size header
          { valpred := v2, index := index, dvi2bit := dvi2bit } flag := by
    intro hv
    unfold dvi_adpcm_encode
    simp only [if_pos hv, encode_start]
  refine ⟨?_, hvalid⟩
  by_cases hv : header.encoding = AE_L16 ∨ header.encoding = AE_PCMU
  · rw [hvalid hv]
  · unfold dvi_adpcm_encode
    simp only [if_neg hv, Option.map_some']

theorem encode_ignores_incoming_predictor_witness :
    (AE_L16 = AE_L16 ∨ AE_L16 = AE_PCMU) ∧
    dvi_adpcm_encode [1000, 0, -5, 7] 6 { encoding := AE_L16 }
        { valpred := -300, index := 4, dvi2bit := 1 } 0
      = dvi_adpcm_encode [1000, 0, -5, 7] 6 { encoding := AE_L16 }
        { valpred := 12345, index := 4, dvi2bit := 1 } 0 :=
  ⟨Or.inl rfl,
    (encode_ignores_incoming_predictor [1000, 0, -5, 7] 6 { encoding := AE_L16 }
      (-300) 12345 4 1 0).2 (Or.inl rfl)⟩

/-! ## Step sizes and the quantisation error -/

theorem stepsizeTable_range (i : Int) (h0 : 0 ≤ i) (h1 : i ≤ 88) :
    7 ≤ tableAt stepsizeTable i ∧ tableAt stepsizeTable i ≤ 32767 := by
  interval_cases i <;> decide

theorem stepsizeTable2_range (i : Int) (h0 : 0 ≤ i) (h1 : i ≤ 10) :
    256 ≤ tableAt stepsizeTable2 i ∧ tableAt stepsizeTable2 i ≤ 32512 ∧
    tableAt stepsizeTable2 i % 256 = 0 := by
  interval_cases i <;> decide

theorem c_shr_one (x : Int) : c_shr x 1 = x / 2 := by
  rw [c_shr_eq_div]; norm_num

theorem c_shr_two (x : Int) : c_shr x 2 = x / 4 := by
  rw [c_shr_eq_div]; norm_num

theorem c_shr_three (x : Int) : c_shr x 3 = x / 8 := by
  rw [c_shr_eq_div]; norm_num

/-- The ladder reconstructs a difference below `2 * step` to within
`(step + 9) / 8`. -/
theorem quant4_ladder_error (diff step : Int) (h0 : 0 ≤ diff) (h1 : diff < 2 * step) :
    -(step + 9) ≤ 8 * (diff - (quant4_ladder_with id diff step).2) ∧
    8 * (diff - (quant4_ladder_with id diff step).2) ≤ step + 9 := by
  simp only [quant4_ladder_with, id, c_shr_one, c_shr_three]
  split_ifs <;> omega

theorem quant4_error (v : Int) (p : predictor)
    (hv : -32768 ≤ v ∧ v ≤ 32767) (hp : -32768 ≤ p.valpred ∧ p.valpred ≤ 32767)
    (h1 : -(2 * p.step) < v - p.valpred) (h2 : v - p.valpred < 2 * p.step) :
    -(p.step + 9) ≤ 8 * (v - (encode_quant4 v p).2.valpred) ∧
    8 * (v - (encode_quant4 v p).2.valpred) ≤ p.step + 9 := by
  rw [← encode_quant4_with_id]
  simp only [encode_quant4_with, id]
  by_cases hs : v - p.valpred < 0
  · simp only [hs, if_true, ne_eq, OfNat.ofNat_ne_zero, not_false_eq_true]
    have hl := quant4_ladder_error (-(v - p.valpred)) p.step (by omega) (by omega)
    generalize (quant4_ladder_with id (-(v - p.valpred)) p.step).2 = vp at hl
    unfold clamp16
    split_ifs <;> omega
  · simp only [hs, if_false, ne_eq, not_true_eq_false]
    have hl := quant4_ladder_error (v - p.valpred) p.step (by omega) (by omega)
    generalize (quant4_ladder_with id (v - p.valpred) p.step).2 = vp at hl
    unfold clamp16
    split_ifs <;> omega

theorem quant2_error (v : Int) (p : predictor)
    (hv : -32768 ≤ v ∧ v ≤ 32767) (hp : -32768 ≤ p.valpred ∧ p.valpred ≤ 32767)
    (heven : p.step % 2 = 0)
    (h1 : -(2 * p.step) < v - p.valpred) (h2 : v - p.valpred < 2 * p.step) :
    -p.step ≤ 2 * (v - (encode_quant2 v p).2.valpred) ∧
    2 * (v - (encode_quant2 v p).2.valpred) ≤ p.step := by
  simp only [encode_quant2, c_shr_one, clamp16]
  split_ifs <;> omega

/-- C19.  Quantisation error of one encoder iteration.  For an in-bounds predictor
`p` and step index `i`, with `step` the table entry at `i`, and a 16-bit sample
`v` with `|v - p| < 2 * step`, the predictor `q` after one encoder iteration on
`v` (clamp included) satisfies `8 * |v - q| <= step + 9` in 4-bit mode and
`2 * |v - q| <= step` in 2-bit mode.  The absolute values are written as two
inequalities. -/
theorem quantisation_error (d p i v : Int) (hb : in_bounds d p i)
    (hv : -32768 ≤ v ∧ v ≤ 32767)
    (h1 : -(2 * step_of d i) < v - p) (h2 : v - p < 2 * step_of d i) :
    (d ≠ 0 →
      -(step_of d i + 9) ≤ 8 * (v - (encode_quant d v
          { valpred := p, index := i, step := step_of d i }).2.valpred) ∧
      8 * (v - (encode_quant d v
          { valpred := p, index := i, step := step_of d i }).2.valpred) ≤ step_of d i + 9) ∧
    (d = 0 →
      -(step_of d i) ≤ 2 * (v - (encode_quant d v
          { valpred := p, index := i, step := step_of d i }).2.valpred) ∧
      2 * (v - (encode_quant d v
          { valpred := p, index := i, step := step_of d i }).2.valpred) ≤ step_of d i) := by
  obtain ⟨hp1, hp2, hi1, hi2⟩ := hb
  constructor
  · intro hd
    simp only [encode_quant, if_pos hd]
    exact quant4_error v { valpred := p, index := i, step := step_of d i } hv ⟨hp1, hp2⟩ h1 h2
  · intro hd
    subst hd
    simp only [encode_quant, ne_eq, not_true_eq_false, if_false]
    have hstep := stepsizeTable2_range i hi1 (by simpa [max_index] using hi2)
    have heven : step_of 0 i % 2 = 0 := by
      have : step_of 0 i = tableAt stepsizeTable2 i := by simp [step_of]
      rw [this]
      omega
    exact quant2_error v { valpred := p, index := i, step := step_of 0 i } hv ⟨hp1, hp2⟩
      heven h1 h2

theorem quantisation_error_witness :
    in_bounds 1 0 0 ∧ ((-32768 : Int) ≤ 13 ∧ (13 : Int) ≤ 32767) ∧
    (-(2 * step_of 1 0) < 13 - 0) ∧ ((13 : Int) - 0 < 2 * step_of 1 0) ∧
    8 * (13 - (encode_quant 1 13
          { valpred := 0, index := 0, step := step_of 1 0 }).2.valpred) ≤ step_of 1 0 + 9 :=
  ⟨by decide, by decide, by decide, by decide,
    ((quantisation_error 1 0 0 13 (by decide) (by decide) (by decide) (by decide)).1
      (by decide)).2⟩

/-! ## No overflow -/

theorem quant4_ladder_exact (w : Int → Int)
    (hw : ∀ x, -2147483648 ≤ x → x ≤ 2147483647 → w x = x)
    (diff step : Int) (h0 : 0 ≤ diff) (h1 : diff ≤ 65535) (hs0 : 0 ≤ step) (hs1 : step ≤ 32767) :
    quant4_ladder_with w diff step = quant4_ladder_with id diff step ∧
    0 ≤ (quant4_ladder_with id diff step).2 ∧ (quant4_ladder_with id diff step).2 ≤ 65534 := by
  have e1 : w (diff - step) = diff - step := hw _ (by omega) (by omega)
  have e2 : w (step / 8 + step) = step / 8 + step := hw _ (by omega) (by omega)
  have e3 : w (diff - step - step / 2) = diff - step - step / 2 := hw _ (by omega) (by omega)
  have e4 : w (diff - step / 2) = diff - step / 2 := hw _ (by omega) (by omega)
  have e5 : w (step / 8 + step + step / 2) = step / 8 + step + step / 2 :=
    hw _ (by omega) (by omega)
  have e6 : w (step / 8 + step / 2) = step / 8 + step / 2 := hw _ (by omega) (by omega)
  have e7 : w (step / 8 + step + step / 2 + step / 2 / 2)
      = step / 8 + step + step / 2 + step / 2 / 2 := hw _ (by omega) (by omega)
  have e8 : w (step / 8 + step + step / 2 / 2) = step / 8 + step + step / 2 / 2 :=
    hw _ (by omega) (by omega)
  have e9 : w (step / 8 + step / 2 + step / 2 / 2) = step / 8 + step / 2 + step / 2 / 2 :=
    hw _ (by omega) (by omega)
  have e10 : w (step / 8 + step / 2 / 2) = step / 8 + step / 2 / 2 :=
    hw _ (by omega) (by omega)
  simp only [quant4_ladder_with, id, c_shr_one, c_shr_three]
  by_cases c1 : diff ≥ step
  · simp only [c1, if_true, e1, e2]
    by_cases c2 : diff - step ≥ step / 2
    · simp only [c2, if_true, e3, e5]
      by_cases c3 : diff - step - step / 2 ≥ step / 2 / 2
      · simp only [c3, if_true, e7, true_and]
        omega
      · simp only [c3, if_false, true_and]
        omega
    · simp only [c2, if_false]
      by_cases c3 : diff - step ≥ step / 2 / 2
      · simp only [c3, if_true, e8, true_and]
        omega
      · simp only [c3, if_false, true_and]
        omega
  · simp only [c1, if_false]
    by_cases c2 : diff ≥ step / 2
    · simp only [c2, if_true, e4, e6]
      by_cases c3 : diff - step / 2 ≥ step / 2 / 2
      · simp only [c3, if_true, e9, true_and]
        omega
      · simp only [c3, if_false, true_and]
        omega
    · simp only [c2, if_false]
      by_cases c3 : diff ≥ step / 2 / 2
      · simp only [c3, if_true, e10, true_and]
        omega
      · simp only [c3, if_false, true_and]
        omega

theorem indexTable_range (c : Int) :
    -1 ≤ tableAt indexTable c ∧ tableAt indexTable c ≤ 8 := by
  unfold tableAt
  generalize c.toNat = n
  by_cases h : n < 16
  · interval_cases n <;> decide
  · have hlen : indexTable.length = 16 := rfl
    rw [List.getD_eq_default _ _ (by rw [hlen]; omega)]
    decide

theorem indexTable2_range (c : Int) :
    -1 ≤ tableAt indexTable2 c ∧ tableAt indexTable2 c ≤ 2 := by
  unfold tableAt
  generalize c.toNat = n
  by_cases h : n < 4
  · interval_cases n <;> decide
  · have hlen : indexTable2.length = 4 := rfl
    rw [List.getD_eq_default _ _ (by rw [hlen]; omega)]
    decide

theorem encode_quant4_exact (w : Int → Int)
    (hw : ∀ x, -2147483648 ≤ x → x ≤ 2147483647 → w x = x)
    (v : Int) (q : predictor) (hv : -32768 ≤ v ∧ v ≤ 32767)
    (hq : -32768 ≤ q.valpred ∧ q.valpred ≤ 32767) (hi : 0 ≤ q.index ∧ q.index ≤ 88)
    (hs : 0 ≤ q.step ∧ q.step ≤ 32767) :
    encode_quant4_with w v q = encode_quant4_with id v q ∧
    -65535 ≤ (encode_quant4_with id v q).1.diff ∧ (encode_quant4_with id v q).1.diff ≤ 65535 ∧
    0 ≤ (encode_quant4_with id v q).1.vpdiff ∧ (encode_quant4_with id v q).1.vpdiff ≤ 65534 ∧
    -2147483648 ≤ (encode_quant4_with id v q).1.unclamped ∧
    (encode_quant4_with id v q).1.unclamped ≤ 2147483647 := by
  have e0 : w (v - q.valpred) = v - q.valpred := hw _ (by omega) (by omega)
  have e1 : w (-(v - q.valpred)) = -(v - q.valpred) := hw _ (by omega) (by omega)
  simp only [encode_quant4_with, id, e0, e1]
  by_cases hsgn : v - q.valpred < 0
  · simp only [hsgn, if_true, ne_eq, OfNat.ofNat_ne_zero, not_false_eq_true]
    obtain ⟨hl, hl0, hl1⟩ := quant4_ladder_exact w hw (-(v - q.valpred)) q.step
      (by omega) (by omega) hs.1 hs.2
    rw [hl]
    generalize quant4_ladder_with id (-(v - q.valpred)) q.step = lad at hl0 hl1 ⊢
    have e2 : w (q.valpred - lad.2) = q.valpred - lad.2 := hw _ (by omega) (by omega)
    have ht := indexTable_range (c_or lad.1 8)
    have e3 : w (q.index + tableAt indexTable (c_or lad.1 8))
        = q.index + tableAt indexTable (c_or lad.1 8) := hw _ (by omega) (by omega)
    rw [e2, e3]
    refine ⟨rfl, ?_, ?_, hl0, hl1, ?_, ?_⟩ <;> omega
  · simp only [hsgn, if_false, ne_eq, not_true_eq_false]
    obtain ⟨hl, hl0, hl1⟩ := quant4_ladder_exact w hw (v - q.valpred) q.step
      (by omega) (by omega) hs.1 hs.2
    rw [hl]
    generalize quant4_ladder_with id (v - q.valpred) q.step = lad at hl0 hl1 ⊢
    have e2 : w (q.valpred + lad.2) = q.valpred + lad.2 := hw _ (by omega) (by omega)
    have ht := indexTable_range (c_or lad.1 0)
    have e3 : w (q.index + tableAt indexTable (c_or lad.1 0))
        = q.index + tableAt indexTable (c_or lad.1 0) := hw _ (by omega) (by omega)
    rw [e2, e3]
    refine ⟨rfl, ?_, ?_, hl0, hl1, ?_, ?_⟩ <;> omega

theorem encode_quant2_exact (w : Int → Int)
    (hw : ∀ x, -2147483648 ≤ x → x ≤ 2147483647 → w x = x)
    (v : Int) (q : predictor) (hv : -32768 ≤ v ∧ v ≤ 32767)
    (hq : -32768 ≤ q.valpred ∧ q.valpred ≤ 32767) (hi : 0 ≤ q.index ∧ q.index ≤ 10)
    (hs : 0 ≤ q.step ∧ q.step ≤ 32767) :
    encode_quant2_with w v q = encode_quant2_with id v q ∧
    -65535 ≤ (encode_quant2_with id v q).1.diff ∧ (encode_quant2_with id v q).1.diff ≤ 65535 ∧
    0 ≤ (encode_quant2_with id v q).1.vpdiff ∧ (encode_quant2_with id v q).1.vpdiff ≤ 65534 ∧
    -2147483648 ≤ (encode_quant2_with id v q).1.unclamped ∧
    (encode_quant2_with id v q).1.unclamped ≤ 2147483647 := by
  have e0 : w (v - q.valpred) = v - q.valpred := hw _ (by omega) (by omega)
  have e1 : w (-(v - q.valpred)) = -(v - q.valpred) := hw _ (by omega) (by omega)
  have e2 : w (q.step / 2 + q.step) = q.step / 2 + q.step := hw _ (by omega) (by omega)
  have e3 : w (q.valpred - (q.step / 2 + q.step)) = q.valpred - (q.step / 2 + q.step) :=
    hw _ (by omega) (by omega)
  have e4 : w (q.valpred + (q.step / 2 + q.step)) = q.valpred + (q.step / 2 + q.step) :=
    hw _ (by omega) (by omega)
  have e5 : w (q.valpred - q.step / 2) = q.valpred - q.step / 2 := hw _ (by omega) (by omega)
  have e6 : w (q.valpred + q.step / 2) = q.valpred + q.step / 2 := hw _ (by omega) (by omega)
  have e7 : ∀ c, w (q.index + tableAt indexTable2 c) = q.index + tableAt indexTable2 c := by
    intro c
    have ht := indexTable2_range c
    exact hw _ (by omega) (by omega)
  simp only [encode_quant2_with, id, e0, e1, e7, c_shr_one]
  by_cases hsgn : v - q.valpred < 0
  · simp only [hsgn, if_true, ne_eq, OfNat.ofNat_ne_zero, not_false_eq_true]
    by_cases c1 : -(v - q.valpred) > q.step
    · simp only [c1, if_true, e2, e3, true_and]
      omega
    · simp only [c1, if_false, e5, true_and]
      omega
  · simp only [hsgn, if_false, ne_eq, not_true_eq_false]
    by_cases c1 : v - q.valpred > q.step
    · simp only [c1, if_true, e2, e4, true_and]
      omega
    · simp only [c1, if_false, e6, true_and]
      omega

theorem decode_dequant4_exact (w : Int → Int)
    (hw : ∀ x, -2147483648 ≤ x → x ≤ 2147483647 → w x = x)
    (c : Int) (q : predictor)
    (hq : -32768 ≤ q.valpred ∧ q.valpred ≤ 32767) (hi : 0 ≤ q.index ∧ q.index ≤ 88)
    (hs : 0 ≤ q.step ∧ q.step ≤ 32767) :
    decode_dequant4_with w c q = decode_dequant4_with id c q ∧
    0 ≤ (decode_dequant4_with id c q).1.vpdiff ∧ (decode_dequant4_with id c q).1.vpdiff ≤ 65534 ∧
    -2147483648 ≤ (decode_dequant4_with id c q).1.unclamped ∧
    (decode_dequant4_with id c q).1.unclamped ≤ 2147483647 := by
  have ht := indexTable_range c
  simp only [decode_dequant4_with, id, c_shr_one, c_shr_two, c_shr_three]
  by_cases c4 : c_and (c_and c 7) 4 = 0 <;> by_cases c2 : c_and (c_and c 7) 2 = 0 <;>
    by_cases c1 : c_and (c_and c 7) 1 = 0 <;> by_cases cs : c_and c 8 = 0 <;>
    simp only [ne_eq, c4, c2, c1, cs, not_true_eq_false, not_false_eq_true, if_true,
      if_false] <;>
    simp (disch := omega) only [hw] <;>
    refine ⟨trivial, ?_, ?_, ?_, ?_⟩ <;> omega

theorem decode_dequant2_exact (w : Int → Int)
    (hw : ∀ x, -2147483648 ≤ x → x ≤ 2147483647 → w x = x)
    (c : Int) (q : predictor)
    (hq : -32768 ≤ q.valpred ∧ q.valpred ≤ 32767) (hi : 0 ≤ q.index ∧ q.index ≤ 10)
    (hs : 0 ≤ q.step ∧ q.step ≤ 32767) :
    decode_dequant2_with w c q = decode_dequant2_with id c q ∧
    0 ≤ (decode_dequant2_with id c q).1.vpdiff ∧ (decode_dequant2_with id c q).1.vpdiff ≤ 65534 ∧
    -2147483648 ≤ (decode_dequant2_with id c q).1.unclamped ∧
    (decode_dequant2_with id c q).1.unclamped ≤ 2147483647 := by
  have ht := indexTable2_range c
  simp only [decode_dequant2_with, id, c_shr_one]
  by_cases c1 : c_and (c_and c 1) 1 = 0 <;> by_cases cs : c_and c 2 = 0 <;>
    simp only [ne_eq, c1, cs, not_true_eq_false, not_false_eq_true, if_true, if_false] <;>
    simp (disch := omega) only [hw] <;>
    refine ⟨trivial, ?_, ?_, ?_, ?_⟩ <;> omega

theorem wrap32_of_range (x : Int) (h0 : -2147483648 ≤ x) (h1 : x ≤ 2147483647) :
    wrap32 x = x := by
  unfold wrap32 ofBits32 toBits32
  split_ifs <;> omega

/-- C20.  No 32-bit overflow.  Let `w` be any conversion of a mathematical result
to the machine `int` that leaves the values of a signed 32-bit integer
unchanged (the two's complement `wrap32` is one).  From an in-bounds predictor
`p` and step index `i`, with `step` the table entry at `i`: one encoder
iteration on a 16-bit sample `v` and one decoder iteration on any code `c`,
computed with `w` applied to the result of every `+` and `-`, give the result
of the computation over the unbounded integers; the difference
`diff = val - valpred` has `|diff| <= 65535`, the final `vpdiff` has
`0 <= vpdiff <= 65534`, and the unclamped `valpred` plus or minus `vpdiff` fits a signed
32-bit integer. -/
theorem no_overflow (w : Int → Int)
    (hw : ∀ x, -2147483648 ≤ x → x ≤ 2147483647 → w x = x)
    (d p i : Int) (hb : in_bounds d p i) :
    (d ≠ 0 →
      (∀ v, -32768 ≤ v → v ≤ 32767 →
        (encode_quant4_with w v { valpred := p, index := i, step := step_of d i }).2
          = encode_quant4 v { valpred := p, index := i, step := step_of d i } ∧
        (encode_quant4_with w v { valpred := p, index := i, step := step_of d i }).1.diff
          = v - p ∧
        -65535 ≤ v - p ∧ v - p ≤ 65535 ∧
        0 ≤ (encode_quant4_with w v
              { valpred := p, index := i, step := step_of d i }).1.vpdiff ∧
        (encode_quant4_with w v
              { valpred := p, index := i, step := step_of d i }).1.vpdiff ≤ 65534 ∧
        -2147483648 ≤ (encode_quant4_with w v
              { valpred := p, index := i, step := step_of d i }).1.unclamped ∧
        (encode_quant4_with w v
              { valpred := p, index := i, step := step_of d i }).1.unclamped ≤ 2147483647) ∧
      (∀ c,
        (decode_dequant4_with w c { valpred := p, index := i, step := step_of d i }).2
          = decode_dequant4 c { valpred := p, index := i, step := step_of d i } ∧
        0 ≤ (decode_dequant4_with w c
              { valpred := p, index := i, step := step_of d i }).1.vpdiff ∧
        (decode_dequant4_with w c
              { valpred := p, index := i, step := step_of d i }).1.vpdiff ≤ 65534 ∧
        -2147483648 ≤ (decode_dequant4_with w c
              { valpred := p, index := i, step := step_of d i }).1.unclamped ∧
        (decode_dequant4_with w c
              { valpred := p, index := i, step := step_of d i }).1.unclamped ≤ 2147483647)) ∧
    (d = 0 →
      (∀ v, -32768 ≤ v → v ≤ 32767 →
        (encode_quant2_with w v { valpred := p, index := i, step := step_of d i }).2
          = encode_quant2 v { valpred := p, index := i, step := step_of d i } ∧
        (encode_quant2_with w v { valpred := p, index := i, step := step_of d i }).1.diff
          = v - p ∧
        -65535 ≤ v - p ∧ v - p ≤ 65535 ∧
        0 ≤ (encode_quant2_with w v
              { valpred := p, index := i, step := step_of d i }).1.vpdiff ∧
        (encode_quant2_with w v
              { valpred := p, index := i, step := step_of d i }).1.vpdiff ≤ 65534 ∧
        -2147483648 ≤ (encode_quant2_with w v
              { valpred := p, index := i, step := step_of d i }).1.unclamped ∧
        (encode_quant2_with w v
              { valpred := p, index := i, step := step_of d i }).1.unclamped ≤ 2147483647) ∧
      (∀ c,
        (decode_dequant2_with w c { valpred := p, index := i, step := step_of d i }).2
          = decode_dequant2 c { valpred := p, index := i, step := step_of d i } ∧
        0 ≤ (decode_dequant2_with w c
              { valpred := p, index := i, step := step_of d i }).1.vpdiff ∧
        (decode_dequant2_with w c
              { valpred := p, index := i, step := step_of d i }).1.vpdiff ≤ 65534 ∧
        -2147483648 ≤ (decode_dequant2_with w c
              { valpred := p, index := i, step := step_of d i }).1.unclamped ∧
        (decode_dequant2_with w c
              { valpred := p, index := i, step := step_of d i }).1.unclamped ≤ 2147483647)) := by
  obtain ⟨hp1, hp2, hi1, hi2⟩ := hb
  constructor
  · intro hd
    have hi88 : i ≤ 88 := by simpa [max_index, hd] using hi2
    have hst := stepsizeTable_range i hi1 hi88
    have hstep : step_of d i = tableAt stepsizeTable i := by simp [step_of, hd]
    have hs : 0 ≤ step_of d i ∧ step_of d i ≤ 32767 := by rw [hstep]; omega
    constructor
    · intro v hv1 hv2
      obtain ⟨he, h1, h2, h3, h4, h5, h6⟩ := encode_quant4_exact w hw v
        { valpred := p, index := i, step := step_of d i } ⟨hv1, hv2⟩ ⟨hp1, hp2⟩ ⟨hi1, hi88⟩ hs
      rw [he]
      exact ⟨rfl, rfl, by omega, by omega, h3, h4, h5, h6⟩
    · intro c
      obtain ⟨he, h3, h4, h5, h6⟩ := decode_dequant4_exact w hw c
        { valpred := p, index := i, step := step_of d i } ⟨hp1, hp2⟩ ⟨hi1, hi88⟩ hs
      rw [he]
      exact ⟨rfl, h3, h4, h5, h6⟩
  · intro hd
    have hi10 : i ≤ 10 := by simpa [max_index, hd] using hi2
    have hst := stepsizeTable2_range i hi1 hi10
    have hstep : step_of d i = tableAt stepsizeTable2 i := by simp [step_of, hd]
    have hs : 0 ≤ step_of d i ∧ step_of d i ≤ 32767 := by rw [hstep]; omega
    constructor
    · intro v hv1 hv2
      obtain ⟨he, h1, h2, h3, h4, h5, h6⟩ := encode_quant2_exact w hw v
        { valpred := p, index := i, step := step_of d i } ⟨hv1, hv2⟩ ⟨hp1, hp2⟩ ⟨hi1, hi10⟩ hs
      rw [he]
      exact ⟨rfl, rfl, by omega, by omega, h3, h4, h5, h6⟩
    · intro c
      obtain ⟨he, h3, h4, h5, h6⟩ := decode_dequant2_exact w hw c
        { valpred := p, index := i, step := step_of d i } ⟨hp1, hp2⟩ ⟨hi1, hi10⟩ hs
      rw [he]
      exact ⟨rfl, h3, h4, h5, h6⟩

theorem no_overflow_witness :
    (∀ x : Int, -2147483648 ≤ x → x ≤ 2147483647 → wrap32 x = x) ∧
    in_bounds 1 (-32768) 88 ∧
    (encode_quant4_with wrap32 32767
        { valpred := -32768, index := 88, step := step_of 1 88 }).2
      = encode_quant4 32767 { valpred := -32768, index := 88, step := step_of 1 88 } ∧
    (encode_quant4_with wrap32 32767
        { valpred := -32768, index := 88, step := step_of 1 88 }).1.vpdiff ≤ 65534 := by
  have h := ((no_overflow wrap32 wrap32_of_range 1 (-32768) 88 (by decide)).1
    (by decide)).1 32767 (by decide) (by decide)
  exact ⟨wrap32_of_range, by decide, h.1, h.2.2.2.2.2.1⟩

end DviAdpcm
